import Mathlib

/-!
Verification of the file-tree reconstruction and editor-session state machine
of the online code editor.

The editor session (open tabs, active tab id, dirty flags) is embedded from
the `EditorProvider` React context: every state-mutating callback
(`openFile`, `closeTab`, `setActiveTab`, `updateTabContent`, `saveFile`)
becomes a pure function on an explicit `SessionState`.  Asynchronous
boundary calls (the content fetch in `openFile`, the PATCH request in
`saveFile`) are modelled by explicit parameters carrying the response the
environment produced; execution is sequential, matching the cooperative
single-threaded event model of the source.

The flat-list-to-tree builder is embedded from `buildTree`/`sortNodes` in
`FileExplorer.tsx`.  The JavaScript `Map` of mutable node objects keyed by
id (last `set` wins) is modelled by id-indexed lookups on the input list,
and the in-place `Array.prototype.sort` with the folders-first comparator
is modelled by `List.insertionSort` (a stable sort, as guaranteed for
`Array.prototype.sort` since ES2019).  `String.prototype.localeCompare` is
a platform collation primitive whose behaviour is not part of this
repository; it is modelled as case-insensitive code-point comparison
(locale collations compare letters case-insensitively at the primary
level), which is the reading the specification itself uses.
-/

namespace CodeEditor

/-- File record type: the `FileType` union `'FILE' | 'FOLDER'`. -/
inductive FType where
  | FILE : FType
  | FOLDER : FType
deriving DecidableEq, Repr

/-- A flat file/folder record (`FileNode` in the source, before tree
assembly).  Fields that the tree builder and the session only copy around
and never inspect (`path`, `extension`, `size`, timestamps) are omitted. -/
structure FileRec where
  id : String
  name : String
  type : FType
  parentId : Option String
deriving DecidableEq, Repr

/-- An open editor tab (`EditorTab` in the source; the display-only
`path`/`extension` fields are omitted). -/
structure EditorTab where
  id : String
  fileId : String
  name : String
  content : String
  isDirty : Bool
  isActive : Bool
deriving DecidableEq, Repr

/-- The tab-related slice of the `EditorProvider` state: the ordered tab
list and the id of the active tab (`null` modelled as `none`). -/
structure SessionState where
  tabs : List EditorTab
  activeTabId : Option String
deriving DecidableEq, Repr

/-- `openFile` from the editor context.  `fetchResult` carries the outcome
of the `/api/files/:id` fetch the environment would produce (`none` models
a failed request, which the source catches and logs, leaving the state
unchanged); `newTabId` carries the generated `tab-${Date.now()}` id.  The
second component records whether a network fetch was performed. -/
def openFile (s : SessionState) (file : FileRec) (fetchResult : Option String)
    (newTabId : String) : SessionState × Bool :=
  if file.type = FType.FOLDER then (s, false)
  else
    match s.tabs.find? (fun t => t.fileId == file.id) with
    | some existingTab => ({ s with activeTabId := some existingTab.id }, false)
    | none =>
      match fetchResult with
      | none => (s, true)
      | some content =>
        let newTab : EditorTab :=
          { id := newTabId, fileId := file.id, name := file.name,
            content := content, isDirty := false, isActive := true }
        ({ tabs := s.tabs.map (fun t => { t with isActive := false }) ++ [newTab],
           activeTabId := some newTabId }, true)

/-- `closeTab` from the editor context.  `findIndex` returning `-1` is kept
as an `Int`; in the branch where the closed tab was active the source reads
`newTabs[Math.min(index, newTabs.length - 1)].id`, which for a negative
index would throw a `TypeError` inside the state updater, aborting the
update — that (unreachable in normal use) path is modelled by returning the
state unchanged. -/
def closeTab (s : SessionState) (tabId : String) : SessionState :=
  let idx : Int := ((s.tabs.findIdx? (fun t => t.id == tabId)).map Int.ofNat).getD (-1)
  let newTabs := s.tabs.filter (fun t => t.id != tabId)
  if s.activeTabId = some tabId ∧ 0 < newTabs.length then
    let newActiveIndex : Int := min idx ((newTabs.length : Int) - 1)
    if h : newActiveIndex.toNat < newTabs.length ∧ 0 ≤ newActiveIndex then
      { tabs := newTabs, activeTabId := some (newTabs.get ⟨newActiveIndex.toNat, h.1⟩).id }
    else s
  else if newTabs.length = 0 then
    { tabs := [], activeTabId := none }
  else
    { tabs := newTabs, activeTabId := s.activeTabId }

/-- `setActiveTab` from the editor context: unconditionally records the id
and recomputes every tab's `isActive` flag. -/
def setActiveTab (s : SessionState) (tabId : String) : SessionState :=
  { tabs := s.tabs.map (fun t => { t with isActive := t.id == tabId }),
    activeTabId := some tabId }

/-- `updateTabContent` from the editor context: replace the content of the
matching tab and mark it dirty. -/
def updateTabContent (s : SessionState) (tabId content : String) : SessionState :=
  { s with tabs := s.tabs.map (fun t =>
      if t.id == tabId then { t with content := content, isDirty := true } else t) }

/-- Outcome of a `saveFile` call: `skipped` models the early `return` (no
request issued), `saved` a successful PATCH, `failed` a failed PATCH whose
error is rethrown to the caller. -/
inductive SaveOutcome where
  | skipped : SaveOutcome
  | saved : SaveOutcome
  | failed : SaveOutcome
deriving DecidableEq, Repr

/-- `saveFile` from the editor context.  `requestOk` carries whether the
PATCH request the environment would serve succeeds. -/
def saveFile (s : SessionState) (tabId : String) (requestOk : Bool) :
    SessionState × SaveOutcome :=
  match s.tabs.find? (fun t => t.id == tabId) with
  | none => (s, SaveOutcome.skipped)
  | some tab =>
    if tab.isDirty = false then (s, SaveOutcome.skipped)
    else if requestOk then
      ({ s with tabs := s.tabs.map (fun t =>
           if t.id == tabId then { t with isDirty := false } else t) },
       SaveOutcome.saved)
    else (s, SaveOutcome.failed)

/-- A session together with the external flat-record store it talks to
(`fileId ↦` last successfully persisted content). -/
structure World where
  session : SessionState
  store : String → String

/-- One user-interface event together with the response of the environment
for the asynchronous boundary call it may trigger. -/
inductive Ev where
  | openF (file : FileRec) (fetchOk : Bool) (newTabId : String) : Ev
  | closeT (tabId : String) : Ev
  | setActiveT (tabId : String) : Ev
  | updateT (tabId content : String) : Ev
  | saveT (tabId : String) (requestOk : Bool) : Ev

/-- Apply one event to the world.  A successful fetch returns the store's
content for the file; a successful save persists the (first) matching
tab's content into the store, as the PATCH handler would. -/
def stepW (w : World) : Ev → World
  | Ev.openF f ok nid =>
    ⟨(openFile w.session f (if ok then some (w.store f.id) else none) nid).1, w.store⟩
  | Ev.closeT tid => ⟨closeTab w.session tid, w.store⟩
  | Ev.setActiveT tid => ⟨setActiveTab w.session tid, w.store⟩
  | Ev.updateT tid c => ⟨updateTabContent w.session tid c, w.store⟩
  | Ev.saveT tid ok =>
    ⟨(saveFile w.session tid ok).1,
     match w.session.tabs.find? (fun t => t.id == tid) with
     | some tab =>
       if tab.isDirty && ok then
         fun i => if i == tab.fileId then tab.content else w.store i
       else w.store
     | none => w.store⟩

/-- Environment constraint on an event: generated `tab-${Date.now()}` ids
are fresh (the source relies on millisecond timestamps not colliding). -/
@[reducible] def basicValid (w : World) : Ev → Prop
  | Ev.openF _ _ nid => ∀ t ∈ w.session.tabs, t.id ≠ nid
  | _ => True

/-- Constraint additionally requiring `setActiveTab` to be invoked with an
existing tab id, which is how the tab-bar UI calls it. -/
@[reducible] def strictValid (w : World) : Ev → Prop
  | Ev.openF _ _ nid => ∀ t ∈ w.session.tabs, t.id ≠ nid
  | Ev.setActiveT tid => ∃ t ∈ w.session.tabs, t.id = tid
  | _ => True

/-- Worlds reachable from the empty session by events allowed by `valid`. -/
inductive Reach (valid : World → Ev → Prop) : World → Prop where
  | init (store : String → String) : Reach valid ⟨⟨[], none⟩, store⟩
  | next {w : World} (e : Ev) : Reach valid w → valid w e → Reach valid (stepW w e)

/-- A node of the materialised display tree: a record plus its (ordered)
children.  In the source a `FILE` node carries no `children` array at all;
here it simply always has `[]`, and the attach phase never places anything
under a `FILE` (see `matNode`). -/
inductive TreeNode where
  | mk (id name : String) (type : FType) (children : List TreeNode) : TreeNode

/-- Id of a tree node. -/
def TreeNode.id : TreeNode → String
  | TreeNode.mk i _ _ _ => i

/-- Name of a tree node. -/
def TreeNode.name : TreeNode → String
  | TreeNode.mk _ n _ _ => n

/-- Type (`FILE`/`FOLDER`) of a tree node. -/
def TreeNode.type : TreeNode → FType
  | TreeNode.mk _ _ t _ => t

/-- Children of a tree node. -/
def TreeNode.children : TreeNode → List TreeNode
  | TreeNode.mk _ _ _ cs => cs

/-- Three-way comparison of char sequences by code point; used to model the
primary (case-insensitive) level of `localeCompare` collation. -/
def charListCmp : List Char → List Char → Int
  | [], [] => 0
  | [], _ :: _ => -1
  | _ :: _, [] => 1
  | a :: as, b :: bs => if a < b then -1 else if b < a then 1 else charListCmp as bs

/-- Model of `a.name.localeCompare(b.name)`: case-insensitive code-point
comparison (see the file header). -/
def localeCompareCI (s t : String) : Int :=
  charListCmp (s.data.map Char.toLower) (t.data.map Char.toLower)

/-- The comparator passed to `sort` in `sortNodes`: folders before files,
otherwise by name. -/
def jsCompare (a b : TreeNode) : Int :=
  if a.type ≠ b.type then (if a.type = FType.FOLDER then -1 else 1)
  else localeCompareCI a.name b.name

/-- The ordering relation induced by the comparator (`jsCompare a b ≤ 0`),
i.e. "`a` may come before `b` in sorted output". -/
def nodeLe (a b : TreeNode) : Prop := jsCompare a b ≤ 0

instance : DecidableRel nodeLe := fun a b =>
  inferInstanceAs (Decidable (jsCompare a b ≤ 0))

/-- `nodeMap.get(i)`: the `Map` keeps the last record `set` under a given
id, so lookup returns the last element of the input with that id. -/
def lastRec (files : List FileRec) (i : String) : Option FileRec :=
  files.reverse.find? (fun x => x.id == i)

/-- Where the attach phase of `buildTree` sends a record: `some p` when
`file.parentId` is truthy (non-null, non-empty) and `nodeMap.has(parentId)`,
otherwise `none` (the record is pushed onto `rootNodes`). -/
def attachTarget (files : List FileRec) (x : FileRec) : Option String :=
  match x.parentId with
  | none => none
  | some p => if p ≠ "" ∧ files.any (fun y => y.id == p) then some p else none

/-- The node objects pushed onto `rootNodes`, in input order (each push
stores the map's object for that id, i.e. the last record with that id). -/
def rootRecs (files : List FileRec) : List FileRec :=
  files.filterMap (fun x =>
    if attachTarget files x = none then lastRec files x.id else none)

/-- The node objects pushed onto the children array of the map object with
id `p`, in input order. -/
def childrenRecs (files : List FileRec) (p : String) : List FileRec :=
  files.filterMap (fun x =>
    if attachTarget files x = some p then lastRec files x.id else none)

/-- Materialise the display node of a record: its children (present only on
folders — pushes onto a `FILE`'s missing `children` array are silent
no-ops) are materialised recursively and sorted by the comparator, exactly
as `sortNodes` does.  `fuel` bounds the recursion depth; `buildTree` passes
`files.length`, which is never exhausted on paths reachable from the roots
(a deeper path would repeat an id, and cyclic records are never attached
under a root). -/
def matNode (files : List FileRec) : Nat → FileRec → TreeNode
  | 0, x => TreeNode.mk x.id x.name x.type []
  | fuel + 1, x =>
    TreeNode.mk x.id x.name x.type
      (if x.type = FType.FOLDER then
        List.insertionSort nodeLe ((childrenRecs files x.id).map (matNode files fuel))
      else [])

/-- `buildTree` from `FileExplorer.tsx`: index records by id, attach each
record under its parent (or promote it to a root), then sort every sibling
list folders-first-then-by-name. -/
def buildTree (files : List FileRec) : List TreeNode :=
  List.insertionSort nodeLe ((rootRecs files).map (matNode files files.length))

mutual
/-- Number of nodes in a tree. -/
def TreeNode.size : TreeNode → Nat
  | TreeNode.mk _ _ _ cs => 1 + sizeForest cs
/-- Number of nodes in a forest. -/
def sizeForest : List TreeNode → Nat
  | [] => 0
  | n :: ns => TreeNode.size n + sizeForest ns
end

mutual
/-- Whether a node with the given id occurs anywhere in a tree. -/
def containsId (i : String) : TreeNode → Bool
  | TreeNode.mk j _ _ cs => j == i || containsIdForest i cs
/-- Whether a node with the given id occurs anywhere in a forest. -/
def containsIdForest (i : String) : List TreeNode → Bool
  | [] => false
  | n :: ns => containsId i n || containsIdForest i ns
end

/-- The parent the attach phase assigns to the map object with id `i`
(`none` when that object is pushed onto the roots instead). -/
def parentOf (files : List FileRec) (i : String) : Option String :=
  (lastRec files i).bind (attachTarget files)

/-- `k`-fold iterated attach-parent of an id. -/
def anc (files : List FileRec) : Nat → String → Option String
  | 0, i => some i
  | k + 1, i => (anc files k i).bind (parentOf files)

/-- The multiset of ids of all nodes materialised (within `fuel`) when the
records of `L` are materialised: `L`'s own ids plus, recursively, everything
under each folder's children list. -/
def follows (files : List FileRec) : Nat → List FileRec → Multiset String
  | 0, L => (L.map (fun x => x.id) : List String)
  | fuel + 1, L =>
    ((L.map (fun x => x.id) : List String) : Multiset String) +
      (L.map (fun x =>
        if x.type = FType.FOLDER then follows files fuel (childrenRecs files x.id)
        else 0)).sum

/-- How many depths `k ≤ fuel` have the `k`-fold attach-ancestor of `i`
land on an id of `L`; an upper bound for how often `i` is materialised
starting from `L`. -/
def hits (files : List FileRec) (i : String) (fuel : Nat) (L : List FileRec) : Nat :=
  (List.range (fuel + 1)).countP (fun k =>
    match anc files k i with
    | some a => L.any (fun x => x.id == a)
    | none => false)

/-- Adjacent-sibling ordering stated by the specification: folders precede
files, and same-type siblings are ordered by the (case-insensitive,
locale-modelled) name comparison. -/
def siblingOk (a b : TreeNode) : Prop :=
  (a.type = FType.FOLDER ∨ b.type = FType.FILE) ∧
    (a.type = b.type → localeCompareCI a.name b.name ≤ 0)

/-- Every sibling list in the tree satisfies `siblingOk` pairwise. -/
inductive WellSorted : TreeNode → Prop where
  | node {i n : String} {t : FType} {cs : List TreeNode} :
      List.Pairwise siblingOk cs → (∀ c ∈ cs, WellSorted c) →
      WellSorted (TreeNode.mk i n t cs)

/-- Structural identity of trees: same id, name and type at every position
and structurally identical child lists. -/
inductive StructId : TreeNode → TreeNode → Prop where
  | node {i n : String} {t : FType} {cs ds : List TreeNode} :
      List.Forall₂ StructId cs ds →
      StructId (TreeNode.mk i n t cs) (TreeNode.mk i n t ds)

/-- Concrete records and states used by the counterexamples and witnesses. -/
def recA : FileRec := ⟨"f1", "a.js", FType.FILE, none⟩

/-- Second concrete file record. -/
def recB : FileRec := ⟨"f2", "b.js", FType.FILE, none⟩

/-- Third concrete file record, not open in `twoTabs`. -/
def recC : FileRec := ⟨"f3", "c.js", FType.FILE, none⟩

/-- Two-tab session in which the second tab is active; the shape produced
by opening `recA` then `recB`. -/
def twoTabs : SessionState :=
  ⟨[⟨"t1", "f1", "a.js", "x", false, false⟩, ⟨"t2", "f2", "b.js", "y", false, true⟩],
   some "t2"⟩

/-- One-tab session with its tab active. -/
def oneTab : SessionState :=
  ⟨[⟨"t1", "f1", "a.js", "x", false, true⟩], some "t1"⟩

/-- World reached by: open `recA`, open `recB`, close the active tab. -/
def c1Cex : World :=
  stepW (stepW (stepW ⟨⟨[], none⟩, fun _ => ""⟩ (Ev.openF recA true "t1"))
      (Ev.openF recB true "t2"))
    (Ev.closeT "t2")

/-- World reached by: open `recA` (store holds "x"), edit to "y", edit back
to "x". -/
def c9Cex : World :=
  stepW (stepW (stepW ⟨⟨[], none⟩, fun _ => "x"⟩ (Ev.openF recA true "t1"))
      (Ev.updateT "t1" "y"))
    (Ev.updateT "t1" "x")

/-- World with one freshly opened tab, used by witnesses. -/
def w1 : World := stepW ⟨⟨[], none⟩, fun _ => "x"⟩ (Ev.openF recA true "t1")

/-- Record list where a record's `parentId` is the (empty-string) id of a
`FILE` record present in the input. -/
def filesEmptyId : List FileRec :=
  [⟨"", "f", FType.FILE, none⟩, ⟨"c", "c", FType.FILE, some ""⟩]

/-- Record list with a child pointing at a `FILE` record with a non-empty
id: the child is silently dropped from the output. -/
def filesDropped : List FileRec :=
  [⟨"p", "p", FType.FILE, none⟩, ⟨"c", "c", FType.FILE, some "p"⟩]

/-- Record list with an orphaned `parentId`. -/
def filesOrphan : List FileRec :=
  [⟨"a", "a.js", FType.FILE, some "zz"⟩, ⟨"d", "dir", FType.FOLDER, none⟩]

/-- `twoTabs` after editing the first (inactive, clean) tab. -/
def dirtySession : SessionState := updateTabContent twoTabs "t1" "q"

/-- The first tab of `dirtySession`. -/
def dirtyTab : EditorTab := ⟨"t1", "f1", "a.js", "q", true, false⟩

/-- Invariant claimed by the specification for a session: when tabs exist,
exactly one carries `isActive = true` and `activeTabId` references it;
when none exist, `activeTabId` is null. -/
def ClaimedSessionInv (s : SessionState) : Prop :=
  (s.tabs = [] → s.activeTabId = none) ∧
    (s.tabs ≠ [] →
      ∃ t ∈ s.tabs, t.isActive = true ∧ s.activeTabId = some t.id ∧
        ∀ u ∈ s.tabs, u.isActive = true → u = t)

/-- The part of the claimed invariant the code actually maintains: the
active-tab designation lives in `activeTabId` (which always references an
existing tab, or is null exactly when no tabs exist); the per-tab
`isActive` flags are not kept in sync. -/
def ActiveRef (s : SessionState) : Prop :=
  (s.tabs = [] → s.activeTabId = none) ∧
    (s.tabs ≠ [] → ∃ t ∈ s.tabs, s.activeTabId = some t.id)

/-- Invariant relating a session to its store: tab ids are distinct
(freshness of generated ids), at most one tab per file, and every clean
tab's content agrees with the last successfully persisted content. -/
def SyncInv (w : World) : Prop :=
  (w.session.tabs.map (fun t => t.id)).Nodup ∧
    (w.session.tabs.map (fun t => t.fileId)).Nodup ∧
    ∀ t ∈ w.session.tabs, t.isDirty = false → t.content = w.store t.fileId

/- ------------------------------------------------------------------
   Theorems.  Generic list helpers first, then the session claims, then
   the tree-builder claims.
   ------------------------------------------------------------------ -/

theorem find?_append_of_none {α : Type} {p : α → Bool} {l1 l2 : List α}
    (h : ∀ x ∈ l1, p x = false) :
    List.find? p (l1 ++ l2) = List.find? p l2 := by
  rw [List.find?_append]
  have : List.find? p l1 = none := List.find?_eq_none.mpr (by simpa using h)
  simp [this]

theorem exists_id_map {L : List EditorTab} {f : EditorTab → EditorTab} {i : String}
    (hf : ∀ t, (f t).id = t.id) (h : ∃ t ∈ L, t.id = i) :
    ∃ t ∈ L.map f, t.id = i := by
  obtain ⟨t, ht, rfl⟩ := h
  exact ⟨f t, List.mem_map_of_mem f ht, hf t⟩

/-- C4 (confirmed).  `saveFile` is a no-op (no request issued) on a
non-dirty tab; on a dirty tab a successful PATCH clears only the dirty
flag, while a failed PATCH leaves the whole state unchanged — dirty flag
still set, edited content intact — and surfaces the failure to the
caller. -/
theorem c4_save_behaviour (s : SessionState) (tid : String) (tab : EditorTab)
    (hf : s.tabs.find? (fun t => t.id == tid) = some tab) :
    (tab.isDirty = false → ∀ ok, saveFile s tid ok = (s, SaveOutcome.skipped)) ∧
    (tab.isDirty = true →
      saveFile s tid false = (s, SaveOutcome.failed) ∧
      (saveFile s tid true).2 = SaveOutcome.saved ∧
      (saveFile s tid true).1.activeTabId = s.activeTabId ∧
      (saveFile s tid true).1.tabs.map (fun t => t.content) = s.tabs.map (fun t => t.content) ∧
      (saveFile s tid true).1.tabs.map (fun t => t.id) = s.tabs.map (fun t => t.id) ∧
      ∀ u ∈ (saveFile s tid true).1.tabs, u.id = tid → u.isDirty = false) := by
  constructor
  · intro hclean ok
    simp [saveFile, hf, hclean]
  · intro hdirty
    refine ⟨by simp [saveFile, hf, hdirty], by simp [saveFile, hf, hdirty], by simp [saveFile, hf, hdirty], ?_, ?_, ?_⟩
    · simp [saveFile, hf, hdirty, List.map_map]
      intro a _
      split <;> rfl
    · simp [saveFile, hf, hdirty, List.map_map]
      intro a _
      split <;> rfl
    · simp only [saveFile, hf, hdirty, Bool.true_eq_false, if_false, ite_false, ite_true, if_true]
      intro u hu hid
      obtain ⟨t, _, rfl⟩ := List.mem_map.mp hu
      by_cases h : (t.id == tid) = true
      · simp [h]
      · simp only [h, if_false] at hid ⊢
        exact absurd hid (by simpa using h)

/-- C4 witness: the dirty tab of `dirtySession`, saved with a failing and
then a succeeding request. -/
theorem c4_save_behaviour_witness :
    dirtyTab.isDirty = true ∧
    saveFile dirtySession "t1" false = (dirtySession, SaveOutcome.failed) := by
  refine ⟨by decide, ?_⟩
  exact ((c4_save_behaviour dirtySession "t1" dirtyTab (by decide)).2 (by decide)).1

/-- C2 counterexample: `setActiveTab` with an id that matches no tab is
not a no-op — it still overwrites `activeTabId` (and clears every
`isActive` flag), contradicting the claim that the session is left
unchanged. -/
theorem c2_counterexample :
    (∀ t ∈ oneTab.tabs, t.id ≠ "zz") ∧ setActiveTab oneTab "zz" ≠ oneTab := by
  decide

/-- C2 amended: for an existing `tabId`, `setActiveTab` activates exactly
that tab (flag-wise) and records it in `activeTabId`; for a missing
`tabId` it is *not* a no-op: it still sets `activeTabId := tabId` and
clears every tab's `isActive` flag (raising no error). -/
theorem c2_setActiveTab (s : SessionState) (tid : String)
    (hnd : (s.tabs.map (fun t => t.id)).Nodup) :
    (setActiveTab s tid).activeTabId = some tid ∧
    (∀ u ∈ (setActiveTab s tid).tabs, u.isActive = (u.id == tid)) ∧
    ((∃ t ∈ s.tabs, t.id = tid) →
      (setActiveTab s tid).tabs.countP (fun t => t.isActive) = 1) ∧
    ((∀ t ∈ s.tabs, t.id ≠ tid) →
      (setActiveTab s tid).tabs = s.tabs.map (fun t => { t with isActive := false })) := by
  refine ⟨rfl, ?_, ?_, ?_⟩
  · intro u hu
    simp only [setActiveTab, List.mem_map] at hu
    obtain ⟨t, _, rfl⟩ := hu
    rfl
  · rintro ⟨t, ht, rfl⟩
    simp only [setActiveTab, List.countP_map]
    have : ((fun t : EditorTab => t.isActive) ∘ fun u : EditorTab =>
        { u with isActive := u.id == t.id }) = fun u : EditorTab => u.id == t.id := rfl
    rw [this]
    have hc : s.tabs.countP (fun u => u.id == t.id) = List.count t.id (s.tabs.map (fun u => u.id)) := by
      rw [List.count, List.countP_map]; rfl
    rw [hc]
    exact List.count_eq_one_of_mem hnd (List.mem_map_of_mem (fun u => u.id) ht)
  · intro hmiss
    simp only [setActiveTab]
    refine List.map_congr_left (fun t ht => ?_)
    have : (t.id == tid) = false := by
      simpa using hmiss t ht
    simp [this]

/-- C2 witness: applying the amended statement to `oneTab`. -/
theorem c2_setActiveTab_witness :
    (setActiveTab oneTab "t1").activeTabId = some "t1" ∧
    (setActiveTab oneTab "t1").tabs.countP (fun t => t.isActive) = 1 := by
  have h := c2_setActiveTab oneTab "t1" (by decide)
  exact ⟨h.1, h.2.2.1 ⟨oneTab.tabs.head (by decide), by decide, rfl⟩⟩

theorem closeTab_eq_active (s : SessionState) (tid : String) (i : Nat)
    (hidx : s.tabs.findIdx? (fun t => t.id == tid) = some i)
    (hact : s.activeTabId = some tid)
    (hne : s.tabs.filter (fun t => t.id != tid) ≠ []) :
    (closeTab s tid).tabs = s.tabs.filter (fun t => t.id != tid) ∧
    (closeTab s tid).activeTabId =
      ((s.tabs.filter (fun t => t.id != tid)).get?
        (min i ((s.tabs.filter (fun t => t.id != tid)).length - 1))).map (fun t => t.id) := by
  have hlen : 0 < (s.tabs.filter (fun t => t.id != tid)).length := List.length_pos.mpr hne
  have hcond : (((i : Int) ⊓ ((↑(s.tabs.filter (fun t => t.id != tid)).length : Int) - 1)).toNat <
        (s.tabs.filter (fun t => t.id != tid)).length) ∧
      (0 : Int) ≤ (i : Int) ⊓ ((↑(s.tabs.filter (fun t => t.id != tid)).length : Int) - 1) := by
    omega
  have hmin : (((i : Int) ⊓ ((↑(s.tabs.filter (fun t => t.id != tid)).length : Int) - 1)).toNat) =
      min i ((s.tabs.filter (fun t => t.id != tid)).length - 1) := by
    omega
  simp only [closeTab, hidx, hact, Option.map_some', Option.getD_some, Int.ofNat_eq_coe]
  rw [if_pos ⟨trivial, hlen⟩, dif_pos hcond]
  refine ⟨rfl, ?_⟩
  conv_rhs => rw [← hmin]
  simp only [List.get?_eq_get hcond.1, Option.map_some']

theorem closeTab_eq_notfound (s : SessionState) (tid : String)
    (hidx : s.tabs.findIdx? (fun t => t.id == tid) = none) :
    closeTab s tid = if s.tabs = [] then ⟨[], none⟩ else s := by
  have hall : ∀ t ∈ s.tabs, (t.id == tid) = false := by
    simpa using List.findIdx?_eq_none_iff.mp hidx
  have hfilter : s.tabs.filter (fun t => t.id != tid) = s.tabs :=
    List.filter_eq_self.mpr (fun t ht => by simpa using hall t ht)
  by_cases hnil : s.tabs = []
  · rw [if_pos hnil]
    have : s.tabs.filter (fun t => t.id != tid) = [] := by rw [hfilter, hnil]
    simp only [closeTab, hidx, this, hnil]
    simp
  · rw [if_neg hnil]
    have hlen : 0 < (s.tabs.filter (fun t => t.id != tid)).length := by
      rw [hfilter]; exact List.length_pos.mpr hnil
    by_cases hact : s.activeTabId = some tid
    · simp only [closeTab, hidx, hact, Option.map_none', Option.getD_none]
      rw [if_pos ⟨trivial, hlen⟩, dif_neg (by omega)]
    · simp only [closeTab, hidx]
      rw [if_neg (by exact fun hc => hact hc.1), if_neg (by omega), hfilter]

theorem closeTab_eq_notactive (s : SessionState) (tid : String)
    (hnact : s.activeTabId ≠ some tid) :
    closeTab s tid =
      if s.tabs.filter (fun t => t.id != tid) = [] then ⟨[], none⟩
      else ⟨s.tabs.filter (fun t => t.id != tid), s.activeTabId⟩ := by
  simp only [closeTab]
  rw [if_neg (by exact fun hc => hnact hc.1)]
  by_cases hf : s.tabs.filter (fun t => t.id != tid) = []
  · rw [if_pos hf, if_pos (by rw [hf]; rfl)]
  · rw [if_neg hf, if_neg (by simpa [List.length_eq_zero] using hf)]

theorem closeTab_eq_emptyfilter (s : SessionState) (tid : String)
    (hf : s.tabs.filter (fun t => t.id != tid) = []) :
    closeTab s tid = ⟨[], none⟩ := by
  have hlen : (s.tabs.filter (fun t => t.id != tid)).length = 0 := by rw [hf]; rfl
  simp only [closeTab]
  rw [if_neg (by omega), if_pos hlen]

theorem closeTab_tabs (s : SessionState) (tid : String) :
    (closeTab s tid).tabs = s.tabs.filter (fun t => t.id != tid) := by
  by_cases hf : s.tabs.filter (fun t => t.id != tid) = []
  · rw [closeTab_eq_emptyfilter s tid hf, hf]
  · match hidx : s.tabs.findIdx? (fun t => t.id == tid) with
    | some i =>
      by_cases hact : s.activeTabId = some tid
      · exact (closeTab_eq_active s tid i hidx hact hf).1
      · rw [closeTab_eq_notactive s tid hact, if_neg hf]
    | none =>
      rw [closeTab_eq_notfound s tid hidx]
      have hall : ∀ t ∈ s.tabs, (t.id == tid) = false := by
        simpa using List.findIdx?_eq_none_iff.mp hidx
      have hfe : s.tabs.filter (fun t => t.id != tid) = s.tabs :=
        List.filter_eq_self.mpr (fun t ht => by simpa using hall t ht)
      by_cases hnil : s.tabs = []
      · rw [if_pos hnil, hfe, hnil]
      · rw [if_neg hnil, hfe]

/-- C3 counterexample: closing the active tab of a two-tab session leaves
exactly one tab and designates it via `activeTabId`, but no remaining tab
has `isActive = true`, contradicting the claim that exactly one remaining
Tab ends up active. -/
theorem c3_counterexample :
    2 ≤ twoTabs.tabs.length ∧ twoTabs.activeTabId = some "t2" ∧
    (closeTab twoTabs "t2").tabs.length = 1 ∧
    (closeTab twoTabs "t2").activeTabId = some "t1" ∧
    ∀ t ∈ (closeTab twoTabs "t2").tabs, t.isActive = false := by
  decide

/-- C3 amended.  `closeTab` removes the tab with the given id.  If the
removed tab was active and tabs remain, `activeTabId` is set to the id of
the tab now occupying the removed tab's index — or the last tab when the
removed one was last (`min index (length - 1)`) — and, with distinct tab
ids, that designates exactly one remaining tab; the per-tab `isActive`
flags, however, are not rewritten, so the designated tab need not carry
`isActive = true`.  If no tab remains, `activeTabId` becomes null; if the
removed tab was not the active one, `activeTabId` is unchanged. -/
theorem c3_closeTab (s : SessionState) (tid : String) :
    (closeTab s tid).tabs = s.tabs.filter (fun t => t.id != tid) ∧
    (s.tabs.filter (fun t => t.id != tid) = [] → (closeTab s tid).activeTabId = none) ∧
    (s.activeTabId ≠ some tid → s.tabs.filter (fun t => t.id != tid) ≠ [] →
      (closeTab s tid).activeTabId = s.activeTabId) ∧
    (∀ i, s.tabs.findIdx? (fun t => t.id == tid) = some i →
      s.activeTabId = some tid → s.tabs.filter (fun t => t.id != tid) ≠ [] →
      (closeTab s tid).activeTabId =
        ((s.tabs.filter (fun t => t.id != tid)).get?
          (min i ((s.tabs.filter (fun t => t.id != tid)).length - 1))).map (fun t => t.id) ∧
      ∃ t ∈ s.tabs.filter (fun t => t.id != tid), (closeTab s tid).activeTabId = some t.id) ∧
    ((s.tabs.map (fun t => t.id)).Nodup →
      ∀ t ∈ s.tabs.filter (fun t => t.id != tid), ∀ u ∈ s.tabs.filter (fun t => t.id != tid),
        (closeTab s tid).activeTabId = some t.id →
        (closeTab s tid).activeTabId = some u.id → t = u) := by
  refine ⟨closeTab_tabs s tid, ?_, ?_, ?_, ?_⟩
  · intro hf
    rw [closeTab_eq_emptyfilter s tid hf]
  · intro hnact hne
    rw [closeTab_eq_notactive s tid hnact, if_neg hne]
  · intro i hidx hact hne
    have h := closeTab_eq_active s tid i hidx hact hne
    have hlen : 0 < (s.tabs.filter (fun t => t.id != tid)).length := List.length_pos.mpr hne
    have hlt : min i ((s.tabs.filter (fun t => t.id != tid)).length - 1) <
        (s.tabs.filter (fun t => t.id != tid)).length := by omega
    refine ⟨h.2, (s.tabs.filter (fun t => t.id != tid)).get ⟨_, hlt⟩, List.get_mem _ _ _, ?_⟩
    rw [h.2, List.get?_eq_get hlt, Option.map_some']
  · intro hnd t ht u hu hat hau
    have hids : ((s.tabs.filter (fun t => t.id != tid)).map (fun t => t.id)).Nodup :=
      ((List.filter_sublist s.tabs).map (fun t => t.id)).nodup hnd
    have : t.id = u.id := by
      rw [hat] at hau
      exact (Option.some_injective _ hau).symm ▸ rfl
    exact List.inj_on_of_nodup_map hids ht hu this

/-- C3 witness: the amended statement applied to closing the active second
tab of `twoTabs`. -/
theorem c3_closeTab_witness :
    (closeTab twoTabs "t2").tabs = twoTabs.tabs.filter (fun t => t.id != "t2") ∧
    (closeTab twoTabs "t2").activeTabId =
      ((twoTabs.tabs.filter (fun t => t.id != "t2")).get?
        (min 1 ((twoTabs.tabs.filter (fun t => t.id != "t2")).length - 1))).map (fun t => t.id) := by
  refine ⟨(c3_closeTab twoTabs "t2").1, ?_⟩
  exact (((c3_closeTab twoTabs "t2").2.2.2.1) 1 (by decide) (by decide) (by decide)).1

/-- C5 counterexample: re-opening a file whose tab exists leaves the tab
list untouched, performs no fetch and sets `activeTabId` to the existing
tab — but it does not set that tab's `isActive` flag, so the claim's
"marks it active" fails in the flag sense the Session invariant uses. -/
theorem c5_counterexample :
    (∃ t ∈ twoTabs.tabs, t.fileId = recA.id) ∧
    (openFile twoTabs recA (some "z") "t9").2 = false ∧
    (openFile twoTabs recA (some "z") "t9").1.tabs = twoTabs.tabs ∧
    (openFile twoTabs recA (some "z") "t9").1.activeTabId = some "t1" ∧
    ∀ t ∈ (openFile twoTabs recA (some "z") "t9").1.tabs,
      t.fileId = recA.id → t.isActive = false := by
  decide

/-- C5 amended.  Opening the same file twice (sequentially, without
closing) creates exactly one tab for it: the second invocation finds the
existing tab, performs no fetch, appends nothing, and designates the
existing tab via `activeTabId` (without rewriting its `isActive` flag). -/
theorem c5_open_dedup (s : SessionState) (f : FileRec) (c nid : String)
    (fr2 : Option String) (nid2 : String)
    (hfile : f.type = FType.FILE)
    (hnone : ∀ t ∈ s.tabs, (t.fileId == f.id) = false) :
    (openFile s f (some c) nid).1.tabs.countP (fun t => t.fileId == f.id) = 1 ∧
    (openFile (openFile s f (some c) nid).1 f fr2 nid2).1.tabs =
      (openFile s f (some c) nid).1.tabs ∧
    (openFile (openFile s f (some c) nid).1 f fr2 nid2).2 = false ∧
    (openFile (openFile s f (some c) nid).1 f fr2 nid2).1.activeTabId = some nid := by
  have hmt : ¬ f.type = FType.FOLDER := by rw [hfile]; intro h; cases h
  have hfind : s.tabs.find? (fun t => t.fileId == f.id) = none :=
    List.find?_eq_none.mpr (fun t ht => by simp [hnone t ht])
  have h1 : openFile s f (some c) nid =
      (⟨s.tabs.map (fun t => { t with isActive := false }) ++
          [⟨nid, f.id, f.name, c, false, true⟩], some nid⟩, true) := by
    simp [openFile, hmt, hfind]
  have hfind2 : (s.tabs.map (fun t : EditorTab => { t with isActive := false }) ++
      [(⟨nid, f.id, f.name, c, false, true⟩ : EditorTab)]).find?
        (fun t => t.fileId == f.id) =
      some (⟨nid, f.id, f.name, c, false, true⟩ : EditorTab) := by
    rw [find?_append_of_none (fun x hx => ?_)]
    · simp
    · obtain ⟨t, ht, rfl⟩ := List.mem_map.mp hx
      simpa using hnone t ht
  refine ⟨?_, ?_, ?_, ?_⟩
  · rw [h1]
    simp only [List.countP_append, List.countP_map]
    have hz : s.tabs.countP ((fun t => t.fileId == f.id) ∘
        (fun t => { t with isActive := false })) = 0 := by
      rw [List.countP_eq_zero]
      intro t ht
      simpa using hnone t ht
    rw [hz]
    simp [List.countP_cons]
  · rw [h1]
    simp [openFile, hmt, hfind2]
  · rw [h1]
    simp [openFile, hmt, hfind2]
  · rw [h1]
    simp [openFile, hmt, hfind2]

/-- C5 witness: opening `recC` twice on top of `twoTabs`. -/
theorem c5_open_dedup_witness :
    (openFile twoTabs recC (some "w") "t3").1.tabs.countP (fun t => t.fileId == recC.id) = 1 ∧
    (openFile (openFile twoTabs recC (some "w") "t3").1 recC none "t4").1.tabs =
      (openFile twoTabs recC (some "w") "t3").1.tabs ∧
    (openFile (openFile twoTabs recC (some "w") "t3").1 recC none "t4").2 = false ∧
    (openFile (openFile twoTabs recC (some "w") "t3").1 recC none "t4").1.activeTabId =
      some "t3" :=
  c5_open_dedup twoTabs recC "w" "t3" none "t4" (by decide) (by decide)

theorem map_comp_eq {β : Type} (g : EditorTab → β) (f : EditorTab → EditorTab)
    (hf : ∀ t, g (f t) = g t) (l : List EditorTab) :
    (l.map f).map g = l.map g := by
  rw [List.map_map]
  exact List.map_congr_left (fun t _ => hf t)

theorem activeRef_of_map (s : SessionState) (f : EditorTab → EditorTab)
    (hf : ∀ t, (f t).id = t.id) (h : ActiveRef s) :
    ActiveRef ⟨s.tabs.map f, s.activeTabId⟩ := by
  constructor
  · intro hnil
    exact h.1 (List.map_eq_nil_iff.mp hnil)
  · intro hne
    have hs : s.tabs ≠ [] := fun hh => hne (by simp [hh])
    obtain ⟨t, ht, hat⟩ := h.2 hs
    exact ⟨f t, List.mem_map_of_mem f ht, by rw [hat, hf t]⟩

theorem activeRef_openFile (s : SessionState) (f : FileRec) (fr : Option String)
    (nid : String) (h : ActiveRef s) : ActiveRef (openFile s f fr nid).1 := by
  unfold openFile
  by_cases hft : f.type = FType.FOLDER
  · simpa [hft] using h
  · rw [if_neg hft]
    cases hfind : s.tabs.find? (fun t => t.fileId == f.id) with
    | some ex =>
      refine ⟨fun hnil => ?_, fun _ => ?_⟩
      · exact absurd (hnil ▸ List.mem_of_find?_eq_some hfind) (List.not_mem_nil ex)
      · exact ⟨ex, List.mem_of_find?_eq_some hfind, rfl⟩
    | none =>
      cases fr with
      | none => exact h
      | some content =>
        refine ⟨fun hnil => ?_, fun _ => ?_⟩
        · exact absurd (List.append_eq_nil.mp hnil).2 (by simp)
        · exact ⟨⟨nid, f.id, f.name, content, false, true⟩,
            List.mem_append_right _ (List.mem_singleton.mpr rfl), rfl⟩

theorem activeRef_closeTab (s : SessionState) (tid : String) (h : ActiveRef s) :
    ActiveRef (closeTab s tid) := by
  by_cases hf : s.tabs.filter (fun t => t.id != tid) = []
  · rw [closeTab_eq_emptyfilter s tid hf]
    exact ⟨fun _ => rfl, fun hne => absurd rfl hne⟩
  · cases hidx : s.tabs.findIdx? (fun t => t.id == tid) with
    | none =>
      rw [closeTab_eq_notfound s tid hidx]
      by_cases hnil : s.tabs = []
      · rw [if_pos hnil]
        exact ⟨fun _ => rfl, fun hne => absurd rfl hne⟩
      · rw [if_neg hnil]
        exact h
    | some i =>
      by_cases hact : s.activeTabId = some tid
      · have hh := closeTab_eq_active s tid i hidx hact hf
        refine ⟨fun hnil => ?_, fun _ => ?_⟩
        · rw [hh.1] at hnil
          exact absurd hnil hf
        · have hlen : 0 < (s.tabs.filter (fun t => t.id != tid)).length :=
            List.length_pos.mpr hf
          have hlt : min i ((s.tabs.filter (fun t => t.id != tid)).length - 1) <
              (s.tabs.filter (fun t => t.id != tid)).length := by omega
          refine ⟨(s.tabs.filter (fun t => t.id != tid)).get ⟨_, hlt⟩, ?_, ?_⟩
          · rw [hh.1]
            exact List.get_mem _ _ _
          · rw [hh.2, List.get?_eq_get hlt, Option.map_some']
      · rw [closeTab_eq_notactive s tid hact, if_neg hf]
        refine ⟨fun hnil => absurd hnil hf, fun _ => ?_⟩
        have hs : s.tabs ≠ [] := by
          intro hh
          exact hf (by rw [hh]; rfl)
        obtain ⟨t, ht, hat⟩ := h.2 hs
        have htid : (t.id != tid) = true := by
          simp only [bne_iff_ne, ne_eq]
          intro hh
          exact hact (by rw [hat, hh])
        exact ⟨t, List.mem_filter.mpr ⟨ht, htid⟩, hat⟩

theorem activeRef_setActiveTab (s : SessionState) (tid : String)
    (hex : ∃ t ∈ s.tabs, t.id = tid) : ActiveRef (setActiveTab s tid) := by
  obtain ⟨t, ht, rfl⟩ := hex
  refine ⟨fun hnil => ?_, fun _ => ?_⟩
  · exact absurd (List.map_eq_nil_iff.mp hnil ▸ ht) (List.not_mem_nil t)
  · exact ⟨{ t with isActive := t.id == t.id }, List.mem_map_of_mem _ ht, rfl⟩

theorem activeRef_updateTabContent (s : SessionState) (tid c : String)
    (h : ActiveRef s) : ActiveRef (updateTabContent s tid c) := by
  refine activeRef_of_map s _ (fun t => ?_) h
  by_cases hh : (t.id == tid) = true <;> simp [hh]

theorem activeRef_saveFile (s : SessionState) (tid : String) (ok : Bool)
    (h : ActiveRef s) : ActiveRef (saveFile s tid ok).1 := by
  unfold saveFile
  cases hfind : s.tabs.find? (fun t => t.id == tid) with
  | none => exact h
  | some tab =>
    by_cases hd : tab.isDirty = false
    · simpa [hd] using h
    · cases ok with
      | false => simpa [hd] using h
      | true =>
        simp only [hd, if_false, if_true, ite_true, ite_false, Bool.false_eq_true]
        refine activeRef_of_map s _ (fun t => ?_) h
        by_cases hh : (t.id == tid) = true <;> simp [hh]

/-- C1 counterexample: a session reachable with well-formed arguments
(open two files, close the active tab) whose tab list is non-empty while
no tab at all has `isActive = true` — the claimed exactly-one-active
invariant fails (the designation survives only in `activeTabId`). -/
theorem c1_counterexample :
    Reach strictValid c1Cex ∧ ¬ ClaimedSessionInv c1Cex.session := by
  constructor
  · exact (((Reach.init _).next _ (by decide)).next _ (by decide)).next _ trivial
  · intro hinv
    have hsess : c1Cex.session = ⟨[⟨"t1", "f1", "a.js", "", false, false⟩], some "t1"⟩ := by
      decide
    rw [hsess] at hinv
    obtain ⟨t, ht, hact, -⟩ := hinv.2 (by simp)
    rw [List.mem_singleton] at ht
    rw [ht] at hact
    exact absurd hact (by decide)

/-- C1 amended.  Along every event sequence from the empty session in
which generated tab ids are fresh and `setActiveTab` is invoked with
existing tab ids (as the UI does), the code maintains: `activeTabId` is
null when no tabs exist, and references some existing tab when tabs exist.
The claimed stronger invariant — exactly one tab with `isActive = true`
referenced by `activeTabId` — does not hold, because `closeTab` and the
existing-tab path of `openFile` never rewrite the `isActive` flags. -/
theorem c1_active_invariant (w : World) (h : Reach strictValid w) :
    ActiveRef w.session := by
  induction h with
  | init store => exact ⟨fun _ => rfl, fun hne => absurd rfl hne⟩
  | next e hr hv ih =>
    cases e with
    | openF f ok nid => exact activeRef_openFile _ _ _ _ ih
    | closeT tid => exact activeRef_closeTab _ _ ih
    | setActiveT tid => exact activeRef_setActiveTab _ _ hv
    | updateT tid c => exact activeRef_updateTabContent _ _ _ ih
    | saveT tid ok => exact activeRef_saveFile _ _ _ ih

/-- C1 witness: the invariant at the world with one freshly opened tab. -/
theorem c1_active_invariant_witness : ActiveRef w1.session :=
  c1_active_invariant w1 ((Reach.init _).next _ (by decide))

theorem syncInv_of_map (w : World) (f : EditorTab → EditorTab) (act : Option String)
    (hid : ∀ t, (f t).id = t.id) (hfid : ∀ t, (f t).fileId = t.fileId)
    (hcd : ∀ t, (f t).isDirty = false → (f t).content = t.content ∧ t.isDirty = false)
    (h : SyncInv w) : SyncInv ⟨⟨w.session.tabs.map f, act⟩, w.store⟩ := by
  obtain ⟨hids, hfids, hsync⟩ := h
  refine ⟨?_, ?_, ?_⟩
  · show ((w.session.tabs.map f).map (fun t => t.id)).Nodup
    rw [map_comp_eq _ f hid]
    exact hids
  · show ((w.session.tabs.map f).map (fun t => t.fileId)).Nodup
    rw [map_comp_eq _ f hfid]
    exact hfids
  · intro u hu hclean
    obtain ⟨t, ht, rfl⟩ := List.mem_map.mp hu
    obtain ⟨hc, hd⟩ := hcd t hclean
    show (f t).content = w.store (f t).fileId
    rw [hc, hfid t]
    exact hsync t ht hd

theorem syncInv_openFile (w : World) (f : FileRec) (ok : Bool) (nid : String)
    (hfresh : ∀ t ∈ w.session.tabs, t.id ≠ nid) (h : SyncInv w) :
    SyncInv (stepW w (Ev.openF f ok nid)) := by
  obtain ⟨hids, hfids, hsync⟩ := h
  simp only [stepW]
  unfold openFile
  by_cases hft : f.type = FType.FOLDER
  · rw [if_pos hft]
    exact ⟨hids, hfids, hsync⟩
  · rw [if_neg hft]
    cases hfind : w.session.tabs.find? (fun t => t.fileId == f.id) with
    | some ex => exact ⟨hids, hfids, hsync⟩
    | none =>
      cases ok with
      | false => exact ⟨hids, hfids, hsync⟩
      | true =>
        have hnofid : ∀ t ∈ w.session.tabs, (t.fileId == f.id) = false := by
          simpa using List.find?_eq_none.mp hfind
        refine ⟨?_, ?_, ?_⟩
        · show (((w.session.tabs.map (fun t => { t with isActive := false })) ++ _).map
            (fun t => t.id)).Nodup
          rw [List.map_append, map_comp_eq (fun t => t.id)
            (fun t => { t with isActive := false }) (fun t => rfl)]
          rw [List.nodup_append]
          refine ⟨hids, List.nodup_singleton _, ?_⟩
          intro a ha hb
          simp only [List.map_cons, List.map_nil, List.mem_singleton] at hb
          obtain ⟨t, ht, rfl⟩ := List.mem_map.mp ha
          exact hfresh t ht hb
        · show (((w.session.tabs.map (fun t => { t with isActive := false })) ++ _).map
            (fun t => t.fileId)).Nodup
          rw [List.map_append, map_comp_eq (fun t => t.fileId)
            (fun t => { t with isActive := false }) (fun t => rfl)]
          rw [List.nodup_append]
          refine ⟨hfids, List.nodup_singleton _, ?_⟩
          intro a ha hb
          simp only [List.map_cons, List.map_nil, List.mem_singleton] at hb
          obtain ⟨t, ht, rfl⟩ := List.mem_map.mp ha
          have hx := hnofid t ht
          rw [hb] at hx
          simp at hx
        · intro u hu hclean
          rcases List.mem_append.mp hu with hl | hr
          · obtain ⟨t, ht, rfl⟩ := List.mem_map.mp hl
            exact hsync t ht hclean
          · rw [List.mem_singleton] at hr
            rw [hr]

theorem syncInv_closeTab (w : World) (tid : String) (h : SyncInv w) :
    SyncInv (stepW w (Ev.closeT tid)) := by
  obtain ⟨hids, hfids, hsync⟩ := h
  refine ⟨?_, ?_, ?_⟩
  · show ((closeTab w.session tid).tabs.map (fun t => t.id)).Nodup
    rw [closeTab_tabs]
    exact ((List.filter_sublist _).map _).nodup hids
  · show ((closeTab w.session tid).tabs.map (fun t => t.fileId)).Nodup
    rw [closeTab_tabs]
    exact ((List.filter_sublist _).map _).nodup hfids
  · show ∀ t ∈ (closeTab w.session tid).tabs, _
    rw [closeTab_tabs]
    intro t ht
    exact hsync t (List.mem_of_mem_filter ht)

theorem syncInv_save (w : World) (tid : String) (ok : Bool) (h : SyncInv w) :
    SyncInv (stepW w (Ev.saveT tid ok)) := by
  obtain ⟨hids, hfids, hsync⟩ := h
  simp only [stepW]
  cases hfind : w.session.tabs.find? (fun t => t.id == tid) with
  | none =>
    simp only [saveFile, hfind]
    exact ⟨hids, hfids, hsync⟩
  | some tab =>
    by_cases hd : tab.isDirty = false
    · have hand : (tab.isDirty && ok) = false := by rw [hd]; rfl
      simp only [saveFile, hfind, hd, hand, if_true, ite_true, if_false, ite_false]
      exact ⟨hids, hfids, hsync⟩
    · have hdt : tab.isDirty = true := by
        revert hd
        cases tab.isDirty <;> simp
      cases ok with
      | false =>
        have hand : (tab.isDirty && false) = false := Bool.and_false _
        simp only [saveFile, hfind, hdt, hand, Bool.true_eq_false, if_false, ite_false,
          Bool.false_eq_true]
        exact ⟨hids, hfids, hsync⟩
      | true =>
        have htab : tab ∈ w.session.tabs := List.mem_of_find?_eq_some hfind
        have htid : tab.id = tid := by simpa using List.find?_some hfind
        have hand : (tab.isDirty && true) = true := by rw [hdt]; rfl
        simp only [saveFile, hfind, hdt, hand, Bool.true_eq_false, if_false, ite_false,
          if_true, ite_true]
        refine ⟨?_, ?_, ?_⟩
        · show ((w.session.tabs.map (fun t => if t.id == tid then
              { t with isDirty := false } else t)).map (fun t => t.id)).Nodup
          rw [map_comp_eq (fun t => t.id) (fun t => if t.id == tid then
            { t with isDirty := false } else t)
            (fun t => by by_cases hh : (t.id == tid) = true <;> simp [hh])]
          exact hids
        · show ((w.session.tabs.map (fun t => if t.id == tid then
              { t with isDirty := false } else t)).map (fun t => t.fileId)).Nodup
          rw [map_comp_eq (fun t => t.fileId) (fun t => if t.id == tid then
            { t with isDirty := false } else t)
            (fun t => by by_cases hh : (t.id == tid) = true <;> simp [hh])]
          exact hfids
        · intro u hu hclean
          obtain ⟨t, ht, rfl⟩ := List.mem_map.mp hu
          by_cases heq : (t.id == tid) = true
          · have hteq : t = tab :=
              List.inj_on_of_nodup_map hids ht htab (by rw [htid]; simpa using heq)
            subst hteq
            simp [heq]
          · have heqb : (t.id == tid) = false := by
              revert heq
              cases t.id == tid <;> simp
            have hneq : t ≠ tab := by
              intro hh
              rw [hh, htid] at heqb
              simp at heqb
            have hfneqb : (t.fileId == tab.fileId) = false := by
              have hfneq : t.fileId ≠ tab.fileId := fun hh =>
                hneq (List.inj_on_of_nodup_map hfids ht htab hh)
              simpa using hfneq
            simp [heqb] at hclean
            simp [heqb, hfneqb]
            exact hsync t ht hclean

theorem syncInv_reach {w : World} (h : Reach basicValid w) : SyncInv w := by
  induction h with
  | init store =>
    exact ⟨List.nodup_nil, List.nodup_nil, fun t ht => absurd ht (List.not_mem_nil t)⟩
  | next e hr hv ih =>
    cases e with
    | openF f ok nid => exact syncInv_openFile _ f ok nid hv ih
    | closeT tid => exact syncInv_closeTab _ tid ih
    | setActiveT tid =>
      exact syncInv_of_map _ _ (some tid) (fun t => rfl) (fun t => rfl)
        (fun t hc => ⟨rfl, hc⟩) ih
    | updateT tid c =>
      refine syncInv_of_map _ _ w.session.activeTabId (fun t => ?_) (fun t => ?_)
        (fun t hc => ?_) ih
      · by_cases hh : (t.id == tid) = true <;> simp [hh]
      · by_cases hh : (t.id == tid) = true <;> simp [hh]
      · by_cases hh : (t.id == tid) = true
        · rw [if_pos hh] at hc
          cases hc
        · rw [if_neg hh] at hc ⊢
          exact ⟨rfl, hc⟩
    | saveT tid ok => exact syncInv_save _ tid ok ih

/-- C9 counterexample: open a file whose persisted content is "x", edit to
"y", edit back to "x": the tab's content again equals the last successfully
persisted content, yet `isDirty` is `true` — `updateTabContent` marks
dirty unconditionally, so dirtiness is not
"content differs from last persisted content". -/
theorem c9_counterexample :
    Reach basicValid c9Cex ∧
    ∃ t ∈ c9Cex.session.tabs, t.isDirty = true ∧ t.content = c9Cex.store t.fileId := by
  refine ⟨(((Reach.init _).next _ (by decide)).next _ trivial).next _ trivial, ?_⟩
  exact ⟨⟨"t1", "f1", "a.js", "x", true, true⟩, by decide, by decide, rfl⟩

/-- C9 amended.  Along every event sequence from the empty session with
fresh generated tab ids, a tab with `isDirty = false` has content equal to
the last successfully persisted content of its file.  The converse
direction of the claimed invariant fails: `updateTabContent` sets
`isDirty := true` even when it rewrites the content back to the persisted
value (see the counterexample). -/
theorem c9_clean_implies_synced (w : World) (h : Reach basicValid w) :
    ∀ t ∈ w.session.tabs, t.isDirty = false → t.content = w.store t.fileId :=
  (syncInv_reach h).2.2

/-- C9 witness: the freshly opened tab of `w1` is clean and carries the
store's content. -/
theorem c9_clean_implies_synced_witness : ("x" : String) = w1.store "f1" :=
  c9_clean_implies_synced w1 ((Reach.init _).next _ (by decide))
    ⟨"t1", "f1", "a.js", "x", false, true⟩ (by decide) (by decide)

theorem charListCmp_neg : ∀ as bs : List Char, charListCmp as bs = - charListCmp bs as
  | [], [] => rfl
  | [], _ :: _ => rfl
  | _ :: _, [] => rfl
  | a :: as, b :: bs => by
    simp only [charListCmp]
    rcases lt_trichotomy a b with h | h | h
    · rw [if_pos h, if_neg (lt_asymm h), if_pos h]
    · subst h
      rw [if_neg (lt_irrefl a), if_neg (lt_irrefl a), if_neg (lt_irrefl a),
        if_neg (lt_irrefl a)]
      exact charListCmp_neg as bs
    · rw [if_neg (lt_asymm h), if_pos h, if_pos h]
      decide

theorem charListCmp_le_trans : ∀ as bs cs : List Char,
    charListCmp as bs ≤ 0 → charListCmp bs cs ≤ 0 → charListCmp as cs ≤ 0
  | [], bs, cs => fun _ _ => by cases cs <;> simp [charListCmp]
  | a :: as, [], cs => fun h1 _ => by simp [charListCmp] at h1
  | a :: as, b :: bs, [] => fun _ h2 => by simp [charListCmp] at h2
  | a :: as, b :: bs, c :: cs => fun h1 h2 => by
    simp only [charListCmp] at h1 h2 ⊢
    rcases lt_trichotomy a b with hab | hab | hab
    · rcases lt_trichotomy b c with hbc | hbc | hbc
      · rw [if_pos (lt_trans hab hbc)]
        omega
      · rw [if_pos (hbc ▸ hab)]
        omega
      · rw [if_neg (lt_asymm hbc), if_pos hbc] at h2
        omega
    · subst hab
      rcases lt_trichotomy a c with hac | hac | hac
      · rw [if_pos hac]
        omega
      · subst hac
        rw [if_neg (lt_irrefl a), if_neg (lt_irrefl a)] at h1 h2 ⊢
        exact charListCmp_le_trans as bs cs h1 h2
      · rw [if_neg (lt_asymm hac), if_pos hac] at h2
        omega
    · rw [if_neg (lt_asymm hab), if_pos hab] at h1
      omega

theorem nodeLe_total (a b : TreeNode) : nodeLe a b ∨ nodeLe b a := by
  unfold nodeLe jsCompare
  by_cases hab : a.type = b.type
  · rw [if_neg (not_not_intro hab), if_neg (not_not_intro hab.symm)]
    unfold localeCompareCI
    rcases le_or_lt (charListCmp (a.name.data.map Char.toLower)
      (b.name.data.map Char.toLower)) 0 with h | h
    · exact Or.inl h
    · refine Or.inr ?_
      rw [charListCmp_neg]
      omega
  · rw [if_pos hab, if_pos (fun h => hab h.symm)]
    cases ha : a.type with
    | FILE =>
      cases hb : b.type with
      | FILE => exact absurd (ha.trans hb.symm) hab
      | FOLDER =>
        refine Or.inr ?_
        decide
    | FOLDER =>
      refine Or.inl ?_
      decide

theorem nodeLe_trans (a b c : TreeNode) : nodeLe a b → nodeLe b c → nodeLe a c := by
  unfold nodeLe jsCompare
  intro h1 h2
  by_cases hab : a.type = b.type
  · by_cases hbc : b.type = c.type
    · rw [if_neg (not_not_intro hab)] at h1
      rw [if_neg (not_not_intro hbc)] at h2
      rw [if_neg (not_not_intro (hab.trans hbc))]
      exact charListCmp_le_trans _ _ _ h1 h2
    · rw [if_pos hbc] at h2
      by_cases hbf : b.type = FType.FOLDER
      · have hac : a.type ≠ c.type := fun h => hbc (hab.symm.trans h)
        rw [if_pos hac, if_pos (hab.trans hbf)]
        omega
      · rw [if_neg hbf] at h2
        omega
  · rw [if_pos hab] at h1
    by_cases haf : a.type = FType.FOLDER
    · have hbfile : b.type = FType.FILE := by
        cases hb : b.type with
        | FILE => rfl
        | FOLDER => exact absurd (haf.trans hb.symm) hab
      by_cases hbc : b.type = c.type
      · have hac : a.type ≠ c.type := by
          rw [haf, ← hbc, hbfile]
          decide
        rw [if_pos hac, if_pos haf]
        omega
      · rw [if_pos hbc, if_neg (by rw [hbfile]; decide)] at h2
        omega
    · rw [if_neg haf] at h1
      omega

instance : IsTotal TreeNode nodeLe := ⟨nodeLe_total⟩

instance : IsTrans TreeNode nodeLe := ⟨nodeLe_trans⟩

theorem nodeLe_siblingOk (a b : TreeNode) (h : nodeLe a b) : siblingOk a b := by
  unfold nodeLe jsCompare at h
  constructor
  · by_cases hab : a.type = b.type
    · cases hb : b.type with
      | FILE => exact Or.inr rfl
      | FOLDER => exact Or.inl (hab.trans hb)
    · rw [if_pos hab] at h
      by_cases ha : a.type = FType.FOLDER
      · exact Or.inl ha
      · rw [if_neg ha] at h
        omega
  · intro hab
    rw [if_neg (not_not_intro hab)] at h
    exact h

theorem pairwise_siblingOk_sort (l : List TreeNode) :
    List.Pairwise siblingOk (List.insertionSort nodeLe l) :=
  (List.sorted_insertionSort nodeLe l).imp (fun h => nodeLe_siblingOk _ _ h)

theorem wellSorted_matNode (files : List FileRec) :
    ∀ (fuel : Nat) (x : FileRec), WellSorted (matNode files fuel x)
  | 0, _ => WellSorted.node List.Pairwise.nil (fun c hc => absurd hc (List.not_mem_nil c))
  | fuel + 1, x => by
    simp only [matNode]
    refine WellSorted.node ?_ ?_
    · by_cases hx : x.type = FType.FOLDER
      · rw [if_pos hx]
        exact pairwise_siblingOk_sort _
      · rw [if_neg hx]
        exact List.Pairwise.nil
    · intro c hc
      by_cases hx : x.type = FType.FOLDER
      · rw [if_pos hx] at hc
        obtain ⟨y, _, rfl⟩ :=
          List.mem_map.mp ((List.perm_insertionSort nodeLe _).subset hc)
        exact wellSorted_matNode files fuel y
      · rw [if_neg hx] at hc
        exact absurd hc (List.not_mem_nil c)

/-- C6 (confirmed).  In every sibling list of the built tree — the roots
and every node's children — folders precede files and same-type siblings
are ordered by the (case-insensitive) name comparison. -/
theorem c6_siblings_sorted (files : List FileRec) :
    List.Pairwise siblingOk (buildTree files) ∧ ∀ n ∈ buildTree files, WellSorted n := by
  refine ⟨pairwise_siblingOk_sort _, fun n hn => ?_⟩
  obtain ⟨x, _, rfl⟩ := List.mem_map.mp ((List.perm_insertionSort nodeLe _).subset hn)
  exact wellSorted_matNode files _ x

/-- C6 witness: the sibling ordering at a concrete record list. -/
theorem c6_siblings_sorted_witness :
    List.Pairwise siblingOk (buildTree filesOrphan) ∧
    ∀ n ∈ buildTree filesOrphan, WellSorted n :=
  c6_siblings_sorted filesOrphan

theorem find?_id_of_nodup {l : List FileRec}
    (hnd : (l.map (fun r => r.id)).Nodup) {x : FileRec} (hx : x ∈ l) :
    l.find? (fun r => r.id == x.id) = some x := by
  induction l with
  | nil => cases hx
  | cons h t ih =>
    rw [List.map_cons] at hnd
    have hnd2 := List.nodup_cons.mp hnd
    rcases List.mem_cons.mp hx with rfl | hxt
    · rw [List.find?_cons_of_pos _ (by simp)]
    · have hne : (h.id == x.id) = false := by
        simp only [beq_eq_false_iff_ne, ne_eq]
        intro he
        exact hnd2.1 (he ▸ List.mem_map_of_mem _ hxt)
      rw [List.find?_cons_of_neg _ (by simp [hne])]
      exact ih hnd2.2 hxt

theorem lastRec_of_nodup {files : List FileRec}
    (hnd : (files.map (fun r => r.id)).Nodup) {x : FileRec} (hx : x ∈ files) :
    lastRec files x.id = some x := by
  unfold lastRec
  refine find?_id_of_nodup ?_ (List.mem_reverse.mpr hx)
  rw [List.map_reverse]
  exact List.nodup_reverse.mpr hnd

theorem mem_rootRecs_self {files : List FileRec} {x : FileRec}
    (hnd : (files.map (fun r => r.id)).Nodup) (hx : x ∈ files)
    (hatt : attachTarget files x = none) : x ∈ rootRecs files := by
  unfold rootRecs
  rw [List.mem_filterMap]
  exact ⟨x, hx, by rw [if_pos hatt]; exact lastRec_of_nodup hnd hx⟩

theorem matNode_id (files : List FileRec) (fuel : Nat) (x : FileRec) :
    (matNode files fuel x).id = x.id := by cases fuel <;> rfl

theorem matNode_name (files : List FileRec) (fuel : Nat) (x : FileRec) :
    (matNode files fuel x).name = x.name := by cases fuel <;> rfl

theorem matNode_type (files : List FileRec) (fuel : Nat) (x : FileRec) :
    (matNode files fuel x).type = x.type := by cases fuel <;> rfl

/-- C7 (confirmed).  A record whose `parentId` is null or references no id
present in the input appears as a root node of the built tree; the builder
is total, so no error is raised for orphaned parents. -/
theorem c7_orphan_is_root (files : List FileRec) (x : FileRec)
    (hnd : (files.map (fun r => r.id)).Nodup) (hx : x ∈ files)
    (horph : x.parentId = none ∨ ∀ y ∈ files, some y.id ≠ x.parentId) :
    ∃ n ∈ buildTree files, n.id = x.id ∧ n.name = x.name ∧ n.type = x.type := by
  have hatt : attachTarget files x = none := by
    rcases horph with h | h
    · simp only [attachTarget, h]
    · cases hp : x.parentId with
      | none => simp only [attachTarget, hp]
      | some p =>
        simp only [attachTarget, hp]
        rw [if_neg ?_]
        rintro ⟨-, hany⟩
        obtain ⟨y, hy, hyp⟩ := List.any_eq_true.mp hany
        exact h y hy (by rw [hp, Option.some_inj]; simpa using hyp)
  have hroot : x ∈ rootRecs files := mem_rootRecs_self hnd hx hatt
  refine ⟨matNode files files.length x, ?_, matNode_id _ _ _, matNode_name _ _ _,
    matNode_type _ _ _⟩
  exact (List.perm_insertionSort nodeLe _).symm.subset
    (List.mem_map_of_mem (matNode files files.length) hroot)

/-- C7 witness: the orphaned record of `filesOrphan` surfaces as a root. -/
theorem c7_orphan_is_root_witness :
    ∃ n ∈ buildTree filesOrphan, n.id = "a" ∧ n.name = "a.js" ∧ n.type = FType.FILE :=
  c7_orphan_is_root filesOrphan ⟨"a", "a.js", FType.FILE, some "zz"⟩
    (by decide) (by decide) (Or.inr (by decide))

theorem structId_refl : (n : TreeNode) → StructId n n
  | TreeNode.mk i nm t cs =>
    StructId.node (List.forall₂_same.mpr (fun c _hc => structId_refl c))
termination_by n => sizeOf n
decreasing_by
  simp_wf
  have := List.sizeOf_lt_of_mem _hc
  omega

/-- C8 (confirmed).  The tree builder is deterministic and pure: in this
embedding the only mutations of the source (`push` onto freshly allocated
children arrays, in-place sort of freshly allocated arrays) act on values
created inside `buildTree`, never on the input list, so two runs on the
same input yield structurally identical forests and the input is a value
that cannot change. -/
theorem c8_idempotent (files : List FileRec) :
    List.Forall₂ StructId (buildTree files) (buildTree files) :=
  List.forall₂_same.mpr (fun n _ => structId_refl n)

theorem lastRec_spec {files : List FileRec} {i : String} {z : FileRec}
    (h : lastRec files i = some z) : z ∈ files ∧ z.id = i := by
  unfold lastRec at h
  exact ⟨List.mem_reverse.mp (List.mem_of_find?_eq_some h), by simpa using List.find?_some h⟩

theorem lastRec_fix {files : List FileRec} {i : String} {z : FileRec}
    (h : lastRec files i = some z) : lastRec files z.id = some z := by
  rw [(lastRec_spec h).2]
  exact h

theorem good_rootRecs (files : List FileRec) :
    ∀ z ∈ rootRecs files, lastRec files z.id = some z := by
  intro z hz
  obtain ⟨x, -, hx⟩ := List.mem_filterMap.mp hz
  by_cases hatt : attachTarget files x = none
  · rw [if_pos hatt] at hx
    exact lastRec_fix hx
  · rw [if_neg hatt] at hx
    cases hx

theorem good_childrenRecs (files : List FileRec) (p : String) :
    ∀ z ∈ childrenRecs files p, lastRec files z.id = some z := by
  intro z hz
  obtain ⟨x, -, hx⟩ := List.mem_filterMap.mp hz
  by_cases hatt : attachTarget files x = some p
  · rw [if_pos hatt] at hx
    exact lastRec_fix hx
  · rw [if_neg hatt] at hx
    cases hx

theorem mem_childrenRecs_iff {files : List FileRec}
    (hnd : (files.map (fun r => r.id)).Nodup) {p : String} {z : FileRec} :
    z ∈ childrenRecs files p ↔ z ∈ files ∧ attachTarget files z = some p := by
  constructor
  · intro hz
    obtain ⟨x, hxf, hx⟩ := List.mem_filterMap.mp hz
    by_cases hatt : attachTarget files x = some p
    · rw [if_pos hatt] at hx
      rw [lastRec_of_nodup hnd hxf] at hx
      cases hx
      exact ⟨hxf, hatt⟩
    · rw [if_neg hatt] at hx
      cases hx
  · rintro ⟨hzf, hatt⟩
    exact List.mem_filterMap.mpr ⟨z, hzf, by rw [if_pos hatt]; exact lastRec_of_nodup hnd hzf⟩

theorem mem_rootRecs_iff {files : List FileRec}
    (hnd : (files.map (fun r => r.id)).Nodup) {z : FileRec} :
    z ∈ rootRecs files ↔ z ∈ files ∧ attachTarget files z = none := by
  constructor
  · intro hz
    obtain ⟨x, hxf, hx⟩ := List.mem_filterMap.mp hz
    by_cases hatt : attachTarget files x = none
    · rw [if_pos hatt] at hx
      rw [lastRec_of_nodup hnd hxf] at hx
      cases hx
      exact ⟨hxf, hatt⟩
    · rw [if_neg hatt] at hx
      cases hx
  · rintro ⟨hzf, hatt⟩
    exact List.mem_filterMap.mpr ⟨z, hzf, by rw [if_pos hatt]; exact lastRec_of_nodup hnd hzf⟩

theorem parentOf_eq {files : List FileRec}
    (hnd : (files.map (fun r => r.id)).Nodup) {z : FileRec} (hz : z ∈ files) :
    parentOf files z.id = attachTarget files z := by
  unfold parentOf
  rw [lastRec_of_nodup hnd hz]
  rfl

theorem mem_childIds_iff {files : List FileRec}
    (hnd : (files.map (fun r => r.id)).Nodup) (p a : String) :
    a ∈ (childrenRecs files p).map (fun r => r.id) ↔ parentOf files a = some p := by
  constructor
  · intro ha
    obtain ⟨z, hz, rfl⟩ := List.mem_map.mp ha
    obtain ⟨hzf, hatt⟩ := (mem_childrenRecs_iff hnd).mp hz
    rw [parentOf_eq hnd hzf]
    exact hatt
  · intro hpar
    unfold parentOf at hpar
    cases hlr : lastRec files a with
    | none => rw [hlr] at hpar; cases hpar
    | some z =>
      rw [hlr] at hpar
      obtain ⟨hzf, hzi⟩ := lastRec_spec hlr
      have hz : z ∈ childrenRecs files p := (mem_childrenRecs_iff hnd).mpr ⟨hzf, hpar⟩
      exact hzi ▸ List.mem_map_of_mem _ hz

theorem not_mem_rootIds_parent {files : List FileRec}
    (hnd : (files.map (fun r => r.id)).Nodup) {a : String}
    (ha : a ∈ (rootRecs files).map (fun r => r.id)) : parentOf files a = none := by
  obtain ⟨z, hz, rfl⟩ := List.mem_map.mp ha
  obtain ⟨hzf, hatt⟩ := (mem_rootRecs_iff hnd).mp hz
  rw [parentOf_eq hnd hzf]
  exact hatt

theorem nodup_filterMap_ids (g : FileRec → Option FileRec)
    (hg : ∀ x z, g x = some z → z.id = x.id) :
    ∀ (l : List FileRec), (l.map (fun r => r.id)).Nodup →
      ((l.filterMap g).map (fun r => r.id)).Nodup := by
  intro l
  induction l with
  | nil => intro _; simp
  | cons h t ih =>
    intro hnd
    rw [List.map_cons] at hnd
    have hnd2 := List.nodup_cons.mp hnd
    rw [List.filterMap_cons]
    cases hgh : g h with
    | none => exact ih hnd2.2
    | some z =>
      rw [List.map_cons, List.nodup_cons]
      refine ⟨?_, ih hnd2.2⟩
      intro hzmem
      obtain ⟨y, hy, hyz⟩ := List.mem_map.mp hzmem
      obtain ⟨x, hxt, hxy⟩ := List.mem_filterMap.mp hy
      refine hnd2.1 ?_
      rw [← hg h z hgh, ← hyz, hg x y hxy]
      exact List.mem_map_of_mem _ hxt

theorem nodup_rootRecs_ids {files : List FileRec}
    (hnd : (files.map (fun r => r.id)).Nodup) :
    ((rootRecs files).map (fun r => r.id)).Nodup := by
  refine nodup_filterMap_ids _ ?_ files hnd
  intro x z h
  by_cases hatt : attachTarget files x = none
  · rw [if_pos hatt] at h
    exact (lastRec_spec h).2
  · rw [if_neg hatt] at h
    cases h

theorem nodup_childrenRecs_ids {files : List FileRec}
    (hnd : (files.map (fun r => r.id)).Nodup) (p : String) :
    ((childrenRecs files p).map (fun r => r.id)).Nodup := by
  refine nodup_filterMap_ids _ ?_ files hnd
  intro x z h
  by_cases hatt : attachTarget files x = some p
  · rw [if_pos hatt] at h
    exact (lastRec_spec h).2
  · rw [if_neg hatt] at h
    cases h

theorem anc_succ (files : List FileRec) (k : Nat) (i : String) :
    anc files (k + 1) i = (anc files k i).bind (parentOf files) := rfl

theorem anc_none_of_none {files : List FileRec} {k : Nat} {i : String}
    (h : anc files k i = none) : ∀ j, anc files (k + j) i = none := by
  intro j
  induction j with
  | zero => exact h
  | succ j ih =>
    rw [show k + (j + 1) = (k + j) + 1 from rfl, anc_succ, ih]
    rfl

theorem anc_none_of_le {files : List FileRec} {k m : Nat} {i : String}
    (h : anc files k i = none) (hl : k ≤ m) : anc files m i = none := by
  have := anc_none_of_none h (m - k)
  rwa [Nat.add_sub_cancel' hl] at this

theorem count_listsum (i : String) :
    ∀ ms : List (Multiset String),
      Multiset.count i ms.sum = (ms.map (Multiset.count i)).sum
  | [] => rfl
  | m :: ms => by
    rw [List.sum_cons, Multiset.count_add, List.map_cons, List.sum_cons,
      count_listsum i ms]

theorem card_listsum :
    ∀ ms : List (Multiset String),
      Multiset.card ms.sum = (ms.map Multiset.card).sum
  | [] => rfl
  | m :: ms => by
    rw [List.sum_cons, Multiset.card_add, List.map_cons, List.sum_cons, card_listsum ms]

theorem count_follows_succ (files : List FileRec) (i : String) (fuel : Nat)
    (L : List FileRec) :
    Multiset.count i (follows files (fuel + 1) L) =
      List.count i (L.map (fun r => r.id)) +
      (L.map (fun x => if x.type = FType.FOLDER then
        Multiset.count i (follows files fuel (childrenRecs files x.id)) else 0)).sum := by
  show Multiset.count i
    (((L.map (fun x => x.id) : List String) : Multiset String) + _) = _
  rw [Multiset.count_add, Multiset.coe_count, count_listsum, List.map_map]
  congr 1
  refine congrArg List.sum (List.map_congr_left (fun x _ => ?_))
  show Multiset.count i (if x.type = FType.FOLDER then
    follows files fuel (childrenRecs files x.id) else 0) = _
  rw [apply_ite (Multiset.count i), Multiset.count_zero]

theorem card_follows_succ (files : List FileRec) (fuel : Nat) (L : List FileRec) :
    Multiset.card (follows files (fuel + 1) L) =
      L.length + (L.map (fun x => if x.type = FType.FOLDER then
        Multiset.card (follows files fuel (childrenRecs files x.id)) else 0)).sum := by
  show Multiset.card
    (((L.map (fun x => x.id) : List String) : Multiset String) + _) = _
  rw [Multiset.card_add, Multiset.coe_card, List.length_map, card_listsum, List.map_map]
  congr 1
  refine congrArg List.sum (List.map_congr_left (fun x _ => ?_))
  show Multiset.card (if x.type = FType.FOLDER then
    follows files fuel (childrenRecs files x.id) else 0) = _
  rw [apply_ite Multiset.card, Multiset.card_zero]

theorem countP_range_shift (P : Nat → Bool) (n : Nat) :
    (List.range (n + 1)).countP P =
      (if P 0 then 1 else 0) + (List.range n).countP (fun k => P (k + 1)) := by
  rw [List.range_succ_eq_map, List.countP_cons, List.countP_map]
  rw [Nat.add_comm]
  rfl

theorem sum_map_add (f g : FileRec → Nat) :
    ∀ L : List FileRec, (L.map (fun x => f x + g x)).sum = (L.map f).sum + (L.map g).sum
  | [] => rfl
  | x :: L => by
    simp only [List.map_cons, List.sum_cons, sum_map_add f g L]
    omega

theorem count_ids_le_any (L : List FileRec)
    (hL : (L.map (fun r => r.id)).Nodup) (i : String) :
    List.count i (L.map (fun r => r.id)) ≤
      if (L.any (fun y => y.id == i)) = true then 1 else 0 := by
  cases hany : L.any (fun y => y.id == i) with
  | true =>
    rw [if_pos rfl]
    exact List.nodup_iff_count_le_one.mp hL i
  | false =>
    rw [if_neg (by simp)]
    rw [Nat.le_zero, List.count_eq_zero]
    intro hmem
    obtain ⟨y, hy, hyi⟩ := List.mem_map.mp hmem
    have := List.any_eq_false.mp hany y hy
    rw [hyi] at this
    simp at this

theorem sum_hit_le (o : Option String) :
    ∀ L : List FileRec, (L.map (fun r => r.id)).Nodup →
      (L.map (fun x => if (o == some x.id) = true then 1 else 0)).sum ≤
        (if (match o with
          | some a => L.any (fun y => y.id == a)
          | none => false) = true then 1 else 0) := by
  intro L hL
  cases o with
  | none =>
    have hz : (L.map (fun x =>
        if ((none : Option String) == some x.id) = true then 1 else 0)).sum = 0 := by
      refine List.sum_eq_zero ?_
      intro n hn
      obtain ⟨x, -, rfl⟩ := List.mem_map.mp hn
      rfl
    rw [hz]
    exact Nat.zero_le _
  | some a =>
    induction L with
    | nil => simp
    | cons h t ih =>
      rw [List.map_cons] at hL
      have hnd2 := List.nodup_cons.mp hL
      rw [List.map_cons, List.sum_cons]
      show (if ((some a : Option String) == some h.id) = true then 1 else 0) +
          (t.map (fun x => if ((some a : Option String) == some x.id) = true
            then 1 else 0)).sum ≤
        if ((h :: t).any (fun y => y.id == a)) = true then 1 else 0
      by_cases hah : ((some a : Option String) == some h.id) = true
      · have haeq : a = h.id := by simpa using hah
        have hz : (t.map (fun x => if ((some a : Option String) == some x.id) = true
            then 1 else 0)).sum = 0 := by
          refine List.sum_eq_zero ?_
          intro n hn
          obtain ⟨x, hx, rfl⟩ := List.mem_map.mp hn
          rw [if_neg ?_]
          intro he
          have hax : a = x.id := by simpa using he
          exact hnd2.1 (haeq ▸ hax ▸ List.mem_map_of_mem (fun r => r.id) hx)
        have hanyh : ((h :: t).any (fun y => y.id == a)) = true := by
          simp only [List.any_cons, Bool.or_eq_true]
          exact Or.inl (by simp [haeq])
        rw [if_pos hah, hz, if_pos hanyh]
      · have ih2 : (t.map (fun x => if ((some a : Option String) == some x.id) = true
            then 1 else 0)).sum ≤ if (t.any (fun y => y.id == a)) = true then 1 else 0 :=
          ih hnd2.2
        rw [if_neg hah]
        by_cases hant : (t.any (fun y => y.id == a)) = true
        · rw [if_pos (by simp only [List.any_cons, Bool.or_eq_true]; exact Or.inr hant)]
          rw [if_pos hant] at ih2
          omega
        · rw [if_neg hant] at ih2
          refine le_trans (by omega) (Nat.zero_le _)

theorem sum_countP_le (L : List FileRec) (hnd : (L.map (fun r => r.id)).Nodup)
    (g : Nat → Option String) :
    ∀ ks : List Nat,
      (L.map (fun x => ks.countP (fun k => g k == some x.id))).sum ≤
        ks.countP (fun k => match g k with
          | some a => L.any (fun y => y.id == a)
          | none => false)
  | [] => by
    have hz : (L.map (fun x => List.countP (fun k => g k == some x.id) [])).sum = 0 :=
      List.sum_eq_zero (fun n hn => by
        obtain ⟨x, -, rfl⟩ := List.mem_map.mp hn
        rfl)
    rw [hz]
    exact Nat.zero_le _
  | k :: ks => by
    have ih := sum_countP_le L hnd g ks
    simp only [List.countP_cons]
    have hsplit : (L.map (fun x => List.countP (fun k => g k == some x.id) ks +
        if (g k == some x.id) = true then 1 else 0)).sum =
        (L.map (fun x => List.countP (fun k => g k == some x.id) ks)).sum +
        (L.map (fun x => if (g k == some x.id) = true then 1 else 0)).sum :=
      sum_map_add _ _ L
    rw [hsplit]
    have hind := sum_hit_le (g k) L hnd
    omega

theorem hits_children_eq (files : List FileRec)
    (hnd : (files.map (fun r => r.id)).Nodup) (i : String) (fuel : Nat) (p : String) :
    hits files i fuel (childrenRecs files p) =
      (List.range (fuel + 1)).countP (fun k => anc files (k + 1) i == some p) := by
  unfold hits
  refine List.countP_congr (fun k _ => ?_)
  cases hk : anc files k i with
  | none =>
    rw [anc_succ, hk]
    simp
  | some a =>
    rw [anc_succ, hk]
    show (childrenRecs files p).any (fun x => x.id == a) = true ↔
      (parentOf files a == some p) = true
    rw [List.any_eq_true, beq_iff_eq, ← mem_childIds_iff hnd p a]
    constructor
    · rintro ⟨x, hx, hxa⟩
      exact (by simpa using hxa : x.id = a) ▸ List.mem_map_of_mem _ hx
    · intro ha
      obtain ⟨x, hx, hxa⟩ := List.mem_map.mp ha
      exact ⟨x, hx, by simp [hxa]⟩

theorem count_follows_le_hits (files : List FileRec)
    (hnd : (files.map (fun r => r.id)).Nodup) :
    ∀ (fuel : Nat) (L : List FileRec), (L.map (fun r => r.id)).Nodup →
      ∀ i : String, Multiset.count i (follows files fuel L) ≤ hits files i fuel L
  | 0, L => by
    intro hL i
    show Multiset.count i ((L.map (fun x => x.id) : List String) : Multiset String) ≤ _
    rw [Multiset.coe_count]
    refine le_trans (count_ids_le_any L hL i) (le_of_eq ?_)
    unfold hits
    rw [show List.range (0 + 1) = [0] from rfl, List.countP_cons, List.countP_nil,
      Nat.zero_add]
    rfl
  | fuel + 1, L => by
    intro hL i
    rw [count_follows_succ]
    have hstep : (L.map (fun x => if x.type = FType.FOLDER then
        Multiset.count i (follows files fuel (childrenRecs files x.id)) else 0)).sum ≤
        (L.map (fun x => (List.range (fuel + 1)).countP
          (fun k => anc files (k + 1) i == some x.id))).sum := by
      refine List.sum_le_sum (fun x _ => ?_)
      by_cases hx : x.type = FType.FOLDER
      · rw [if_pos hx, ← hits_children_eq files hnd i fuel x.id]
        exact count_follows_le_hits files hnd fuel (childrenRecs files x.id)
          (nodup_childrenRecs_ids hnd x.id) i
      · rw [if_neg hx]
        exact Nat.zero_le _
    have hswap := sum_countP_le L hL (fun k => anc files (k + 1) i) (List.range (fuel + 1))
    have hshift : hits files i (fuel + 1) L =
        (if (L.any (fun x => x.id == i)) = true then 1 else 0) +
        (List.range (fuel + 1)).countP (fun k => match anc files (k + 1) i with
          | some a => L.any (fun y => y.id == a)
          | none => false) := by
      unfold hits
      rw [countP_range_shift]
      rfl
    have hcnt := count_ids_le_any L hL i
    omega

theorem countP_le_one_of_unique {l : List Nat} (hnd : l.Nodup) (P : Nat → Bool)
    (h : ∀ a ∈ l, ∀ b ∈ l, P a = true → P b = true → a = b) : l.countP P ≤ 1 := by
  induction l with
  | nil => simp
  | cons x t ih =>
    have hnd2 := List.nodup_cons.mp hnd
    rw [List.countP_cons]
    by_cases hx : P x = true
    · have hz : t.countP P = 0 := by
        rw [List.countP_eq_zero]
        intro b hb hPb
        exact hnd2.1
          ((h x (List.mem_cons_self x t) b (List.mem_cons_of_mem x hb) hx hPb) ▸ hb)
      rw [hz, if_pos hx]
    · rw [if_neg hx]
      have := ih hnd2.2 (fun a ha b hb =>
        h a (List.mem_cons_of_mem x ha) b (List.mem_cons_of_mem x hb))
      omega

theorem anc_root_stop {files : List FileRec}
    (hnd : (files.map (fun r => r.id)).Nodup) {k : Nat} {i a : String}
    (hk : anc files k i = some a)
    (ha : (rootRecs files).any (fun x => x.id == a) = true) :
    ∀ m, k < m → anc files m i = none := by
  intro m hm
  have hroot : a ∈ (rootRecs files).map (fun r => r.id) := by
    obtain ⟨z, hz, hza⟩ := List.any_eq_true.mp ha
    exact (by simpa using hza : z.id = a) ▸ List.mem_map_of_mem (fun r => r.id) hz
  have hpar : parentOf files a = none := not_mem_rootIds_parent hnd hroot
  have hk1 : anc files (k + 1) i = none := by
    rw [anc_succ, hk]
    exact hpar
  exact anc_none_of_le hk1 hm

theorem hits_roots_le_one (files : List FileRec)
    (hnd : (files.map (fun r => r.id)).Nodup) (i : String) (n : Nat) :
    hits files i n (rootRecs files) ≤ 1 := by
  unfold hits
  refine countP_le_one_of_unique (List.nodup_range _) _ ?_
  intro k1 _ k2 _ hP1 hP2
  rcases Nat.lt_trichotomy k1 k2 with hlt | heq | hgt
  · cases hk1 : anc files k1 i with
    | none =>
      simp only [hk1] at hP1
      exact Bool.noConfusion hP1
    | some a =>
      simp only [hk1] at hP1
      rw [anc_root_stop hnd hk1 hP1 k2 hlt] at hP2
      cases hP2
  · exact heq
  · cases hk2 : anc files k2 i with
    | none =>
      simp only [hk2] at hP2
      exact Bool.noConfusion hP2
    | some a =>
      simp only [hk2] at hP2
      rw [anc_root_stop hnd hk2 hP2 k1 hgt] at hP1
      cases hP1

theorem dfree_rootIds {files : List FileRec} {d : FileRec} {p : String}
    (hnd : (files.map (fun r => r.id)).Nodup) (hd : d ∈ files)
    (hattd : attachTarget files d = some p) :
    d.id ∉ (rootRecs files).map (fun r => r.id) := by
  intro hmem
  have h := not_mem_rootIds_parent hnd hmem
  rw [parentOf_eq hnd hd, hattd] at h
  cases h

theorem dfree_follows (files : List FileRec) (d f : FileRec)
    (hnd : (files.map (fun r => r.id)).Nodup) (hd : d ∈ files) (hf : f ∈ files)
    (hft : f.type = FType.FILE) (hattd : attachTarget files d = some f.id) :
    ∀ (fuel : Nat) (L : List FileRec), (∀ z ∈ L, lastRec files z.id = some z) →
      d.id ∉ L.map (fun r => r.id) →
      Multiset.count d.id (follows files fuel L) = 0
  | 0, L => by
    intro _ hnotin
    show Multiset.count d.id
      ((L.map (fun x => x.id) : List String) : Multiset String) = 0
    rw [Multiset.coe_count, List.count_eq_zero]
    exact hnotin
  | fuel + 1, L => by
    intro hgood hnotin
    rw [count_follows_succ, List.count_eq_zero.mpr hnotin, Nat.zero_add]
    refine List.sum_eq_zero ?_
    intro n hn
    obtain ⟨x, hx, rfl⟩ := List.mem_map.mp hn
    by_cases hxf : x.type = FType.FOLDER
    · rw [if_pos hxf]
      refine dfree_follows files d f hnd hd hf hft hattd fuel (childrenRecs files x.id)
        (good_childrenRecs files x.id) ?_
      intro hmem
      have hpar : parentOf files d.id = some x.id :=
        (mem_childIds_iff hnd x.id d.id).mp hmem
      rw [parentOf_eq hnd hd, hattd] at hpar
      have hfx : f.id = x.id := Option.some_inj.mp hpar
      have h1 : lastRec files f.id = some x := by
        rw [hfx]
        exact hgood x hx
      have h2 : lastRec files f.id = some f := lastRec_of_nodup hnd hf
      rw [Option.some_inj.mp (h1.symm.trans h2)] at hxf
      rw [hft] at hxf
      exact absurd hxf (by decide)
    · rw [if_neg hxf]

theorem follows_subset_ids (files : List FileRec) :
    ∀ (fuel : Nat) (L : List FileRec), (∀ z ∈ L, lastRec files z.id = some z) →
      ∀ i, i ∉ files.map (fun r => r.id) → Multiset.count i (follows files fuel L) = 0
  | 0, L => by
    intro hgood i hni
    show Multiset.count i ((L.map (fun x => x.id) : List String) : Multiset String) = 0
    rw [Multiset.coe_count, List.count_eq_zero]
    intro hmem
    obtain ⟨z, hz, rfl⟩ := List.mem_map.mp hmem
    exact hni (List.mem_map_of_mem (fun r => r.id) (lastRec_spec (hgood z hz)).1)
  | fuel + 1, L => by
    intro hgood i hni
    rw [count_follows_succ]
    have h1 : List.count i (L.map (fun r => r.id)) = 0 := by
      rw [List.count_eq_zero]
      intro hmem
      obtain ⟨z, hz, rfl⟩ := List.mem_map.mp hmem
      exact hni (List.mem_map_of_mem (fun r => r.id) (lastRec_spec (hgood z hz)).1)
    rw [h1, Nat.zero_add]
    refine List.sum_eq_zero ?_
    intro n hn
    obtain ⟨x, hx, rfl⟩ := List.mem_map.mp hn
    by_cases hxf : x.type = FType.FOLDER
    · rw [if_pos hxf]
      exact follows_subset_ids files fuel _ (good_childrenRecs files x.id) i hni
    · rw [if_neg hxf]

theorem sizeForest_eq_sum : ∀ l : List TreeNode, sizeForest l = (l.map TreeNode.size).sum
  | [] => rfl
  | n :: l => by
    simp only [sizeForest, List.map_cons, List.sum_cons, sizeForest_eq_sum l]

theorem sizeForest_perm {l1 l2 : List TreeNode} (h : l1.Perm l2) :
    sizeForest l1 = sizeForest l2 := by
  rw [sizeForest_eq_sum, sizeForest_eq_sum]
  exact (h.map TreeNode.size).sum_eq

theorem card_follows_zero (files : List FileRec) (L : List FileRec) :
    Multiset.card (follows files 0 L) = L.length := by
  show Multiset.card ((L.map (fun x => x.id) : List String) : Multiset String) = _
  rw [Multiset.coe_card, List.length_map]

theorem size_matNode_zero (files : List FileRec) :
    ∀ L : List FileRec, sizeForest (L.map (matNode files 0)) = L.length
  | [] => rfl
  | x :: L => by
    simp only [List.map_cons, sizeForest, size_matNode_zero files L]
    show TreeNode.size (TreeNode.mk x.id x.name x.type []) + L.length = L.length + 1
    simp only [TreeNode.size, sizeForest]
    omega

theorem sizeForest_matList (files : List FileRec) :
    ∀ (fuel : Nat) (L : List FileRec),
      sizeForest (L.map (matNode files fuel)) = Multiset.card (follows files fuel L)
  | 0, L => by rw [size_matNode_zero, card_follows_zero]
  | fuel + 1, L => by
    rw [card_follows_succ]
    induction L with
    | nil => rfl
    | cons x L ihL =>
      simp only [List.map_cons, sizeForest, List.sum_cons] at ihL ⊢
      rw [ihL]
      have hsz : TreeNode.size (matNode files (fuel + 1) x) =
          1 + (if x.type = FType.FOLDER then
            Multiset.card (follows files fuel (childrenRecs files x.id)) else 0) := by
        show TreeNode.size (TreeNode.mk x.id x.name x.type
          (if x.type = FType.FOLDER then
            List.insertionSort nodeLe ((childrenRecs files x.id).map (matNode files fuel))
          else [])) = _
        simp only [TreeNode.size]
        congr 1
        by_cases hxf : x.type = FType.FOLDER
        · rw [if_pos hxf, if_pos hxf,
            sizeForest_perm (List.perm_insertionSort nodeLe _)]
          exact sizeForest_matList files fuel (childrenRecs files x.id)
        · rw [if_neg hxf, if_neg hxf]
          rfl
      rw [hsz]
      simp only [List.length_cons]
      omega

theorem containsIdForest_false_iff (i : String) :
    ∀ l : List TreeNode, containsIdForest i l = false ↔ ∀ n ∈ l, containsId i n = false
  | [] => by simp [containsIdForest]
  | n :: l => by
    show (containsId i n || containsIdForest i l) = false ↔ _
    rw [Bool.or_eq_false_iff, containsIdForest_false_iff i l, List.forall_mem_cons]

theorem dfree_matNode (files : List FileRec) (d f : FileRec)
    (hnd : (files.map (fun r => r.id)).Nodup) (hd : d ∈ files) (hf : f ∈ files)
    (hft : f.type = FType.FILE) (hattd : attachTarget files d = some f.id) :
    ∀ (fuel : Nat) (x : FileRec), lastRec files x.id = some x → x.id ≠ d.id →
      containsId d.id (matNode files fuel x) = false
  | 0, x => by
    intro _ hxd
    show (x.id == d.id || containsIdForest d.id []) = false
    simp [hxd, containsIdForest]
  | fuel + 1, x => by
    intro hgx hxd
    simp only [matNode, containsId]
    rw [Bool.or_eq_false_iff]
    refine ⟨by simp [hxd], ?_⟩
    by_cases hxf : x.type = FType.FOLDER
    · rw [if_pos hxf, containsIdForest_false_iff]
      intro n hn
      obtain ⟨z, hz, rfl⟩ := List.mem_map.mp ((List.perm_insertionSort nodeLe _).subset hn)
      refine dfree_matNode files d f hnd hd hf hft hattd fuel z
        (good_childrenRecs files x.id z hz) ?_
      intro hzd
      have hdz : z = d := by
        have h1 : lastRec files d.id = some z := by
          rw [← hzd]
          exact good_childrenRecs files x.id z hz
        have h2 : lastRec files d.id = some d := lastRec_of_nodup hnd hd
        exact Option.some_inj.mp (h1.symm.trans h2)
      have hzc := (mem_childrenRecs_iff hnd).mp hz
      rw [hdz] at hzc
      have hfx : f.id = x.id := Option.some_inj.mp (hattd.symm.trans hzc.2)
      have h1 : lastRec files f.id = some x := by
        rw [hfx]
        exact hgx
      have h2 : lastRec files f.id = some f := lastRec_of_nodup hnd hf
      rw [Option.some_inj.mp (h1.symm.trans h2)] at hxf
      rw [hft] at hxf
      exact absurd hxf (by decide)
    · rw [if_neg hxf]
      rfl

/-- C10 counterexample: the claim fails when the referenced `FILE` record's
id is the empty string.  `file.parentId && nodeMap.has(...)` treats the
empty-string parent id as falsy, so the child is promoted to a root instead
of being dropped: it does appear in the output, and the output has exactly
as many nodes as the input has records. -/
theorem c10_counterexample :
    (filesEmptyId.map (fun r => r.id)).Nodup ∧
    (∃ fr ∈ filesEmptyId, fr.type = FType.FILE ∧
      ∃ dr ∈ filesEmptyId, dr.parentId = some fr.id) ∧
    containsIdForest "c" (buildTree filesEmptyId) = true ∧
    sizeForest (buildTree filesEmptyId) = filesEmptyId.length := by
  refine ⟨by decide, ⟨⟨"", "f", FType.FILE, none⟩, by decide, by decide,
    ⟨"c", "c", FType.FILE, some ""⟩, by decide, by decide⟩, by decide, by decide⟩

/-- C10 amended.  For unique-id inputs, a record whose `parentId` is the
*non-empty* id of a `FILE` record present in the input appears nowhere in
the built tree — the push onto the `FILE`'s missing `children` array is a
silent no-op — and the output forest has strictly fewer nodes than the
input has records.  (When that id is the empty string, the parent id is
falsy and the record is promoted to a root instead; see the
counterexample.) -/
theorem c10_dropped_child (files : List FileRec) (d f : FileRec)
    (hnd : (files.map (fun r => r.id)).Nodup) (hd : d ∈ files) (hf : f ∈ files)
    (hft : f.type = FType.FILE) (hpid : d.parentId = some f.id) (hne : f.id ≠ "") :
    (∀ n ∈ buildTree files, containsId d.id n = false) ∧
    sizeForest (buildTree files) < files.length := by
  have hattd : attachTarget files d = some f.id := by
    simp only [attachTarget, hpid]
    rw [if_pos ⟨hne, List.any_eq_true.mpr ⟨f, hf, by simp⟩⟩]
  constructor
  · intro n hn
    obtain ⟨x, hx, rfl⟩ := List.mem_map.mp ((List.perm_insertionSort nodeLe _).subset hn)
    refine dfree_matNode files d f hnd hd hf hft hattd files.length x
      (good_rootRecs files x hx) ?_
    intro hxd
    exact dfree_rootIds hnd hd hattd (hxd ▸ List.mem_map_of_mem (fun r => r.id) hx)
  · have hle : follows files files.length (rootRecs files) ≤
        (((files.map (fun r => r.id)).filter (fun a => a != d.id) : List String) :
          Multiset String) := by
      rw [Multiset.le_iff_count]
      intro a
      rw [Multiset.coe_count]
      by_cases had : a = d.id
      · subst had
        rw [dfree_follows files d f hnd hd hf hft hattd files.length (rootRecs files)
          (good_rootRecs files) (dfree_rootIds hnd hd hattd)]
        exact Nat.zero_le _
      · by_cases hain : a ∈ files.map (fun r => r.id)
        · have h1 : Multiset.count a (follows files files.length (rootRecs files)) ≤ 1 :=
            le_trans (count_follows_le_hits files hnd files.length (rootRecs files)
              (nodup_rootRecs_ids hnd) a) (hits_roots_le_one files hnd a files.length)
          have h2 : List.count a ((files.map (fun r => r.id)).filter
              (fun a => a != d.id)) = 1 := by
            rw [List.count_filter (by simp [had])]
            exact List.count_eq_one_of_mem hnd hain
          omega
        · rw [follows_subset_ids files files.length (rootRecs files)
            (good_rootRecs files) a hain]
          exact Nat.zero_le _
    have hcard := Multiset.card_le_card hle
    rw [Multiset.coe_card] at hcard
    have hlen : ((files.map (fun r => r.id)).filter (fun a => a != d.id)).length <
        (files.map (fun r => r.id)).length := by
      rw [List.length_filter_lt_length_iff_exists]
      exact ⟨d.id, List.mem_map_of_mem (fun r => r.id) hd, by simp⟩
    rw [List.length_map] at hlen
    have hsz : sizeForest (buildTree files) =
        Multiset.card (follows files files.length (rootRecs files)) := by
      unfold buildTree
      rw [sizeForest_perm (List.perm_insertionSort nodeLe _)]
      exact sizeForest_matList files files.length (rootRecs files)
    omega

/-- C10 witness: a file-typed parent with a non-empty id silently swallows
its child. -/
theorem c10_dropped_child_witness :
    (∀ n ∈ buildTree filesDropped, containsId "c" n = false) ∧
    sizeForest (buildTree filesDropped) < filesDropped.length :=
  c10_dropped_child filesDropped ⟨"c", "c", FType.FILE, some "p"⟩
    ⟨"p", "p", FType.FILE, none⟩ (by decide) (by decide) (by decide) (by decide)
    (by decide) (by decide)

end CodeEditor
